import Mathlib

/-!
SimpleVector: a shallow embedding of `simple_vector.h`.

The C++ class `SimpleVector<Type>` keeps three fields: `capacity_`, `size_` and the owned
buffer `vector_` (an `ArrayPtr<Type>`).  Here a vector is a record with the same three
fields, and every member function is a Lean function on that record.

Conventions of the embedding.

* `size_t` values are natural numbers.  The only arithmetic in the class is `size_ * 2`,
  `size_ + 1` and `size_ - 1` (the last one guarded by an assertion), so wrap-around would
  need a buffer of at least `2 ^ 63` elements, which no allocation delivers.
* A buffer is the list of its slots; reading or writing a slot outside the allocation is
  undefined behaviour in C++ and is the fault `Fault.outOfBuffer` here.
* A failed `assert` is the fault `Fault.assertion`; the exception thrown by `At` is the
  fault `Fault.outOfRange`.
* An element passed by reference (`const Type&` or `Type&&`) is a `Ref`: an object outside
  the buffer of the vector, or a slot of the buffer the vector owns when the call starts.
  The call reads it when the source does; reading a slot of a buffer that the call has
  released meanwhile is undefined behaviour in C++ and is the fault `Fault.released` here.
* Iterators are indices into the buffer (`begin()` is index `0`, `end()` is index `size_`).
* `std::move` of an element `x` hands over its value and leaves `mv x` behind, for a
  function `mv` that is a parameter (the identity for trivially copyable element types,
  the constant empty string for `std::string`).  `ResizeCapacity` moves out of a buffer
  that it releases right after, so no `mv` shows there.
* `Type()` is `default` of an `Inhabited` element type.
* An allocation always succeeds.
* A buffer has exactly one owner, so a vector is a value.  A program with two vector
  objects is a `Store`; the test `this != &rhs` of the assignments compares the names of
  the objects.
* Where the question is which object owns which allocation (the copy constructor), a
  vector object is a `VectorObj`: its counters and the address of its block on a `Heap`.
-/

namespace SimpleVec

/-- The ways in which a call can fail to return normally. -/
inductive Fault where
  | outOfRange
  | assertion
  | outOfBuffer
  | released
  deriving DecidableEq

/-- Modelled from the spec: the owned buffer `ArrayPtr<Type>` of `array_ptr.h`, which is not
part of the sources at hand.  It owns one contiguous allocation and knows nothing about a
logical size; the allocation is the list of its slots. -/
structure ArrayPtr (α : Type) where
  cells : List α
  deriving DecidableEq

namespace ArrayPtr

variable {α : Type}

/-- Modelled from the spec: `ArrayPtr()` owns no allocation. -/
def empty : ArrayPtr α := ⟨[]⟩

/-- Modelled from the spec: `ArrayPtr(capacity)` allocates `capacity` default-constructed
elements. -/
def alloc [Inhabited α] (capacity : Nat) : ArrayPtr α := ⟨List.replicate capacity default⟩

/-- Modelled from the spec: reading `buf[i]`; the caller must guarantee that `i` lies inside
the allocation. -/
def get (buf : ArrayPtr α) (i : Nat) : Except Fault α :=
  match buf.cells[i]? with
  | some x => .ok x
  | none => .error .outOfBuffer

/-- Modelled from the spec: writing `buf[i] = x`; the caller must guarantee that `i` lies
inside the allocation. -/
def set (buf : ArrayPtr α) (i : Nat) (x : α) : Except Fault (ArrayPtr α) :=
  if i < buf.cells.length then .ok ⟨buf.cells.set i x⟩ else .error .outOfBuffer

/-- Modelled from the spec: the move constructor `ArrayPtr(ArrayPtr&& other)` transfers the
allocation, and `other` owns nothing afterwards.  Returns the new buffer and `other` after
the call. -/
def moveCtor (other : ArrayPtr α) : ArrayPtr α × ArrayPtr α := (other, empty)

/-- Modelled from the spec: `swap(other)` exchanges the two allocations, no element is
touched.  Returns `*this` and `other` after the call. -/
def swap (this other : ArrayPtr α) : ArrayPtr α × ArrayPtr α := (other, this)

end ArrayPtr

/-- An element argument taken by reference: `obj x` is an object with value `x` that is no
slot of the buffer of the vector, `slot j` is slot `j` of the buffer that the vector owns
when the call starts (as in `v.PushBack(v[j])`). -/
inductive Ref (α : Type) where
  | obj (x : α)
  | slot (j : Nat)
  deriving DecidableEq

namespace Ref

variable {α : Type}

/-- Reading through the reference while the vector uses the buffer `buf`; `replaced` tells
whether the call has replaced, and released, the buffer it started with. -/
def read (r : Ref α) (replaced : Bool) (buf : ArrayPtr α) : Except Fault α :=
  match r, replaced with
  | .obj x, _ => .ok x
  | .slot _, true => .error .released
  | .slot j, false => buf.get j

/-- The buffer after `std::move` has taken the value `x` out of the referenced object: a
referenced slot is left with `mv x`, an object outside the buffer is none of its slots.
(A move of a slot onto itself, which the standard leaves unspecified, is the write followed
by this step.) -/
def leave (mv : α → α) (r : Ref α) (x : α) (buf : ArrayPtr α) : Except Fault (ArrayPtr α) :=
  match r with
  | .obj _ => .ok buf
  | .slot j => buf.set j (mv x)

end Ref

/-! ## The standard algorithms the class calls, as loops over buffer indices -/

section Algorithms

variable {α : Type}

/-- The loop of `std::generate(first, first + n, g)` with `g` returning `x`: writes `x` to the
`n` slots from index `first` on. -/
def generateLoop (x : α) : Nat → Nat → ArrayPtr α → Except Fault (ArrayPtr α)
  | 0, _, buf => .ok buf
  | n + 1, first, buf =>
    match buf.set first x with
    | .error e => .error e
    | .ok buf1 => generateLoop x n (first + 1) buf1

/-- The call `std::generate(&buf[first], &buf[last], [](){ return x; })`; `std::fill` is the
same loop. -/
def std_generate (buf : ArrayPtr α) (first last : Nat) (x : α) : Except Fault (ArrayPtr α) :=
  generateLoop x (last - first) first buf

/-- The loop of `std::move` / `std::copy` from one buffer into another one: `n` times
`*d_first++ = *first++`. -/
def moveLoop (src : ArrayPtr α) : Nat → Nat → Nat → ArrayPtr α → Except Fault (ArrayPtr α)
  | 0, _, _, dst => .ok dst
  | n + 1, first, d_first, dst =>
    match src.get first with
    | .error e => .error e
    | .ok x =>
      match dst.set d_first x with
      | .error e => .error e
      | .ok dst1 => moveLoop src n (first + 1) (d_first + 1) dst1

/-- The call `std::move(&src[first], &src[last], &dst[d_first])` between two different
buffers (`std::copy` behaves the same on values). -/
def std_move (src : ArrayPtr α) (first last : Nat) (dst : ArrayPtr α) (d_first : Nat) :
    Except Fault (ArrayPtr α) :=
  moveLoop src (last - first) first d_first dst

/-- The loop of `std::move` inside one buffer: `n` times `*d_first++ = std::move(*first++)`,
every read seeing the writes made before it; the slot moved from is left with `mv x`. -/
def moveWithinLoop (mv : α → α) : Nat → Nat → Nat → ArrayPtr α → Except Fault (ArrayPtr α)
  | 0, _, _, buf => .ok buf
  | n + 1, first, d_first, buf =>
    match buf.get first with
    | .error e => .error e
    | .ok x =>
      match buf.set d_first x with
      | .error e => .error e
      | .ok buf1 =>
        match buf1.set first (mv x) with
        | .error e => .error e
        | .ok buf2 => moveWithinLoop mv n (first + 1) (d_first + 1) buf2

/-- The call `std::move(&buf[first], &buf[last], &buf[d_first])` inside one buffer. -/
def std_move_within (mv : α → α) (buf : ArrayPtr α) (first last d_first : Nat) :
    Except Fault (ArrayPtr α) :=
  moveWithinLoop mv (last - first) first d_first buf

/-- The loop of `std::copy_backward` inside one buffer: `n` times
`*(--d_last) = *(--last)`. -/
def copyBackwardLoop : Nat → Nat → Nat → ArrayPtr α → Except Fault (ArrayPtr α)
  | 0, _, _, buf => .ok buf
  | n + 1, last, d_last, buf =>
    match buf.get (last - 1) with
    | .error e => .error e
    | .ok x =>
      match buf.set (d_last - 1) x with
      | .error e => .error e
      | .ok buf1 => copyBackwardLoop n (last - 1) (d_last - 1) buf1

/-- The call `std::copy_backward(&buf[first], &buf[last], &buf[d_last])` inside one
buffer. -/
def std_copy_backward (buf : ArrayPtr α) (first last d_last : Nat) : Except Fault (ArrayPtr α) :=
  copyBackwardLoop (last - first) last d_last buf

/-- The loop of `std::move_backward` inside one buffer: `n` times
`*(--d_last) = std::move(*(--last))`; the slot moved from is left with `mv x`. -/
def moveBackwardLoop (mv : α → α) : Nat → Nat → Nat → ArrayPtr α → Except Fault (ArrayPtr α)
  | 0, _, _, buf => .ok buf
  | n + 1, last, d_last, buf =>
    match buf.get (last - 1) with
    | .error e => .error e
    | .ok x =>
      match buf.set (d_last - 1) x with
      | .error e => .error e
      | .ok buf1 =>
        match buf1.set (last - 1) (mv x) with
        | .error e => .error e
        | .ok buf2 => moveBackwardLoop mv n (last - 1) (d_last - 1) buf2

/-- The call `std::move_backward(&buf[first], &buf[last], &buf[d_last])` inside one
buffer. -/
def std_move_backward (mv : α → α) (buf : ArrayPtr α) (first last d_last : Nat) :
    Except Fault (ArrayPtr α) :=
  moveBackwardLoop mv (last - first) last d_last buf

/-- The loop of the three-iterator `std::equal`: compares `n` pairs `a[first1 + k]`,
`b[first2 + k]` and stops at the first pair that differs. -/
def equalLoop [DecidableEq α] (a b : ArrayPtr α) : Nat → Nat → Nat → Except Fault Bool
  | 0, _, _ => .ok true
  | n + 1, first1, first2 =>
    match a.get first1 with
    | .error e => .error e
    | .ok x =>
      match b.get first2 with
      | .error e => .error e
      | .ok y => if x = y then equalLoop a b n (first1 + 1) (first2 + 1) else .ok false

/-- The call `std::equal(&a[first1], &a[last1], &b[first2])`. -/
def std_equal [DecidableEq α] (a : ArrayPtr α) (first1 last1 : Nat) (b : ArrayPtr α)
    (first2 : Nat) : Except Fault Bool :=
  equalLoop a b (last1 - first1) first1 first2

/-- The loop of `std::lexicographical_compare`: with `n1` elements left in the first range
and `n2` in the second, `for (; first1 != last1 && first2 != last2; ++first1, ++first2)`
returns true at `*first1 < *first2`, false at `*first2 < *first1`, and after the loop the
value of `first1 == last1 && first2 != last2`. -/
def lexLoop [LT α] [DecidableRel (fun x y : α => x < y)] (a b : ArrayPtr α) :
    Nat → Nat → Nat → Nat → Except Fault Bool
  | 0, _, n2, _ => .ok (decide (n2 ≠ 0))
  | _ + 1, _, 0, _ => .ok false
  | n1 + 1, first1, n2 + 1, first2 =>
    match a.get first1 with
    | .error e => .error e
    | .ok x =>
      match b.get first2 with
      | .error e => .error e
      | .ok y =>
        if x < y then .ok true
        else if y < x then .ok false
        else lexLoop a b n1 (first1 + 1) n2 (first2 + 1)

/-- The call `std::lexicographical_compare(&a[first1], &a[last1], &b[first2], &b[last2])`. -/
def std_lexicographical_compare [LT α] [DecidableRel (fun x y : α => x < y)]
    (a : ArrayPtr α) (first1 last1 : Nat) (b : ArrayPtr α) (first2 last2 : Nat) :
    Except Fault Bool :=
  lexLoop a b (last1 - first1) first1 (last2 - first2) first2

/-- The comparison of `lexLoop` on two lists instead of two index ranges of buffers; the
loop computes it on the ranges it walks (`lexLoop_eq_lexList`). -/
def lexList [LT α] [DecidableRel (fun x y : α => x < y)] : List α → List α → Bool
  | [], ys => decide (ys.length ≠ 0)
  | _ :: _, [] => false
  | x :: xs, y :: ys =>
    if x < y then true else if y < x then false else lexList xs ys

end Algorithms

/-! ## The class -/

/-- The class `ReserveProxyObj`: it carries the capacity asked for. -/
structure ReserveProxyObj where
  capacity_ : Nat
  deriving DecidableEq

/-- `ReserveProxyObj::getCapacity()`. -/
def ReserveProxyObj.getCapacity (p : ReserveProxyObj) : Nat := p.capacity_

/-- The free function `Reserve(capacity_to_reserve)`, which builds the proxy. -/
def Reserve (capacity_to_reserve : Nat) : ReserveProxyObj := ⟨capacity_to_reserve⟩

/-- The three data members of `SimpleVector<Type>`. -/
structure SimpleVector (α : Type) where
  capacity_ : Nat
  size_ : Nat
  vector_ : ArrayPtr α
  deriving DecidableEq

namespace SimpleVector

variable {α : Type}

/-- The class invariant: the buffer holds exactly `capacity_` slots and the logical size
does not exceed the capacity. -/
def WF (v : SimpleVector α) : Prop :=
  v.vector_.cells.length = v.capacity_ ∧ v.size_ ≤ v.capacity_

instance (v : SimpleVector α) : Decidable v.WF :=
  inferInstanceAs (Decidable (_ ∧ _))

/-- The logical contents: the slots `[0, size_)` of the buffer. -/
def contents (v : SimpleVector α) : List α := v.vector_.cells.take v.size_

/-- `SimpleVector() noexcept = default`. -/
def mk0 : SimpleVector α := ⟨0, 0, ArrayPtr.empty⟩

/-- `ResizeCapacity(new_capacity)`: a new buffer, every slot set to `Type()`, the `size_`
elements moved to its front, the buffers swapped, the capacity updated. -/
def ResizeCapacity [Inhabited α] (v : SimpleVector α) (new_capacity : Nat) :
    Except Fault (SimpleVector α) :=
  match std_generate (ArrayPtr.alloc new_capacity) 0 new_capacity default with
  | .error e => .error e
  | .ok new_vector =>
    match std_move v.vector_ 0 v.size_ new_vector 0 with
    | .error e => .error e
    | .ok new_vector1 => .ok { v with vector_ := new_vector1, capacity_ := new_capacity }

/-- `SimpleVector(std::initializer_list<Type> init)`: capacity and size are `init.size()`,
and the loop `vector_[i] = Type(*iter)` copies the elements of `init` in order. -/
def ofInitList [Inhabited α] (init : List α) : Except Fault (SimpleVector α) :=
  std_move ⟨init⟩ 0 init.length (ArrayPtr.alloc init.length) 0 |>.map
    fun buf => ⟨init.length, init.length, buf⟩

/-- `Reserve(new_capacity)`. -/
def Reserve [Inhabited α] (v : SimpleVector α) (new_capacity : Nat) :
    Except Fault (SimpleVector α) :=
  if v.capacity_ < new_capacity then ResizeCapacity v new_capacity else .ok v

/-- `GetSize()`. -/
def GetSize (v : SimpleVector α) : Nat := v.size_

/-- `GetCapacity()`. -/
def GetCapacity (v : SimpleVector α) : Nat := v.capacity_

/-- `IsEmpty()`. -/
def IsEmpty (v : SimpleVector α) : Bool := v.size_ == 0

/-- `operator[](index)`: no check at all. -/
def index (v : SimpleVector α) (i : Nat) : Except Fault α := v.vector_.get i

/-- `At(index)`: the state after the call, and the element or the fault. -/
def At (v : SimpleVector α) (i : Nat) : SimpleVector α × Except Fault α :=
  if i ≥ v.size_ then (v, .error .outOfRange) else (v, v.vector_.get i)

/-- `Clear()`. -/
def Clear (v : SimpleVector α) : SimpleVector α := { v with size_ := 0 }

/-- `Resize(new_size)`. -/
def Resize [Inhabited α] (v : SimpleVector α) (new_size : Nat) :
    Except Fault (SimpleVector α) :=
  if new_size < v.capacity_ then
    .ok { v with size_ := new_size }
  else
    match ResizeCapacity v (max new_size (v.size_ * 2)) with
    | .error e => .error e
    | .ok v1 => .ok { v1 with size_ := new_size }

/-- `PushBack(const Type& item)`: after the growth step, which releases the old buffer when
it runs, `vector_[size_] = item` reads `item` and writes the slot. -/
def PushBack [Inhabited α] (v : SimpleVector α) (item : Ref α) : Except Fault (SimpleVector α) :=
  match (if v.size_ = v.capacity_ then ResizeCapacity v (if v.size_ = 0 then 1 else v.size_ * 2)
         else .ok v) with
  | .error e => .error e
  | .ok v1 =>
    match item.read (decide (v.size_ = v.capacity_)) v1.vector_ with
    | .error e => .error e
    | .ok x =>
      match v1.vector_.set v1.size_ x with
      | .error e => .error e
      | .ok buf => .ok { v1 with vector_ := buf, size_ := v1.size_ + 1 }

/-- `PushBack(Type&& item)`: as the other overload, with `vector_[size_] = std::move(item)`,
which leaves the object `item` refers to moved from. -/
def PushBackMove [Inhabited α] (mv : α → α) (v : SimpleVector α) (item : Ref α) :
    Except Fault (SimpleVector α) :=
  match (if v.size_ = v.capacity_ then ResizeCapacity v (if v.size_ = 0 then 1 else v.size_ * 2)
         else .ok v) with
  | .error e => .error e
  | .ok v1 =>
    match item.read (decide (v.size_ = v.capacity_)) v1.vector_ with
    | .error e => .error e
    | .ok x =>
      match v1.vector_.set v1.size_ x with
      | .error e => .error e
      | .ok buf =>
        match item.leave mv x buf with
        | .error e => .error e
        | .ok buf1 => .ok { v1 with vector_ := buf1, size_ := v1.size_ + 1 }

/-- `Insert(pos, const Type& value)` with `pos = cbegin() + index`: `value` is read by
`vector_[index] = value`, after the growth step and after `std::copy_backward`.  Returns
the vector and the returned iterator as an index. -/
def Insert [Inhabited α] (v : SimpleVector α) (index : Nat) (value : Ref α) :
    Except Fault (SimpleVector α × Nat) :=
  if ¬ index ≤ v.size_ then .error .assertion
  else
    match (if v.size_ = v.capacity_ then
             ResizeCapacity v (if v.size_ = 0 then 1 else v.size_ * 2)
           else .ok v) with
    | .error e => .error e
    | .ok v1 =>
      match std_copy_backward v1.vector_ index v1.size_ (v1.size_ + 1) with
      | .error e => .error e
      | .ok buf1 =>
        match value.read (decide (v.size_ = v.capacity_)) buf1 with
        | .error e => .error e
        | .ok x =>
          match buf1.set index x with
          | .error e => .error e
          | .ok buf2 => .ok ({ v1 with vector_ := buf2, size_ := v1.size_ + 1 }, index)

/-- `PopBack()`. -/
def PopBack (v : SimpleVector α) : Except Fault (SimpleVector α) :=
  if v.IsEmpty then .error .assertion else .ok { v with size_ := v.size_ - 1 }

/-- `Erase(pos)` with `pos = cbegin() + index`; returns the vector and the returned iterator
as an index. -/
def Erase (mv : α → α) (v : SimpleVector α) (index : Nat) :
    Except Fault (SimpleVector α × Nat) :=
  if ¬ index < v.size_ then .error .assertion
  else
    match std_move_within mv v.vector_ (index + 1) v.size_ index with
    | .error e => .error e
    | .ok buf => .ok ({ v with vector_ := buf, size_ := v.size_ - 1 }, index)

/-- A caller that appends the elements of a list of its own, `xs`, one after the other:
`PushBack(x)` for each `x` of `xs`, in order. -/
def pushAll [Inhabited α] : SimpleVector α → List α → Except Fault (SimpleVector α)
  | v, [] => .ok v
  | v, x :: xs =>
    match PushBack v (.obj x) with
    | .error e => .error e
    | .ok v1 => pushAll v1 xs

/-- The capacities reached by pushing onto an empty vector: `0` while nothing was pushed,
afterwards a power of two below twice the size. -/
def CapInv (v : SimpleVector α) : Prop :=
  (v.size_ = 0 ∧ v.capacity_ = 0) ∨
    ∃ k, v.capacity_ = 2 ^ k ∧ v.size_ ≤ v.capacity_ ∧ v.capacity_ < 2 * v.size_

/-- The `operator==` of two vectors: `std::equal(lhs.begin(), lhs.end(), rhs.begin())`. -/
def opEq [DecidableEq α] (lhs rhs : SimpleVector α) : Except Fault Bool :=
  std_equal lhs.vector_ 0 lhs.size_ rhs.vector_ 0

/-- The `operator!=` of two vectors: `!(lhs == rhs)`. -/
def opNe [DecidableEq α] (lhs rhs : SimpleVector α) : Except Fault Bool :=
  (opEq lhs rhs).map fun b => !b

/-- `SimpleVector(size_t size)`: a buffer of `size` slots, each set to `Type()` by the
loop of the constructor. -/
def ofCount [Inhabited α] (size : Nat) : Except Fault (SimpleVector α) :=
  (std_generate (ArrayPtr.alloc size) 0 size default).map fun buf => ⟨size, size, buf⟩

/-- `SimpleVector(size_t size, const Type& value)`: a buffer of `size` slots, filled with
`value` by `std::fill(begin(), end(), value)`. -/
def ofCountValue [Inhabited α] (size : Nat) (value : α) : Except Fault (SimpleVector α) :=
  (std_generate (ArrayPtr.alloc size) 0 size value).map fun buf => ⟨size, size, buf⟩

/-- `SimpleVector(const SimpleVector& other)`: capacity and size of `other`, a new buffer
of `capacity_` slots, and `std::copy(other.begin(), other.end(), begin())`. -/
def copyCtor [Inhabited α] (other : SimpleVector α) : Except Fault (SimpleVector α) :=
  (std_move other.vector_ 0 other.size_ (ArrayPtr.alloc other.capacity_) 0).map
    fun buf => ⟨other.capacity_, other.size_, buf⟩

/-- `SimpleVector(SimpleVector&& other)`: the new vector takes capacity and size of `other`
and move-constructs its buffer from `other.vector_`; the body sets size and capacity of
`other` to 0.  Returns the new vector and `other` after the call. -/
def moveCtor (other : SimpleVector α) : SimpleVector α × SimpleVector α :=
  (⟨other.capacity_, other.size_, (ArrayPtr.moveCtor other.vector_).1⟩,
   ⟨0, 0, (ArrayPtr.moveCtor other.vector_).2⟩)

/-- `SimpleVector(const ReserveProxyObj& reserve_proxy)`: the default members, then
`Reserve(reserve_proxy.getCapacity())`. -/
def ofReserve [Inhabited α] (reserve_proxy : ReserveProxyObj) : Except Fault (SimpleVector α) :=
  Reserve mk0 reserve_proxy.getCapacity

/-- `Insert(pos, Type&& value)` with `pos = cbegin() + index`: `assert(index < size_)`, the
growth step, `std::move_backward`, then `vector_[index] = std::move(value)`, which reads
`value` and leaves the object it refers to moved from. -/
def InsertMove [Inhabited α] (mv : α → α) (v : SimpleVector α) (index : Nat) (value : Ref α) :
    Except Fault (SimpleVector α × Nat) :=
  if ¬ index < v.size_ then .error .assertion
  else
    match (if v.size_ = v.capacity_ then
             ResizeCapacity v (if v.size_ = 0 then 1 else v.size_ * 2)
           else .ok v) with
    | .error e => .error e
    | .ok v1 =>
      match std_move_backward mv v1.vector_ index v1.size_ (v1.size_ + 1) with
      | .error e => .error e
      | .ok buf1 =>
        match value.read (decide (v.size_ = v.capacity_)) buf1 with
        | .error e => .error e
        | .ok x =>
          match buf1.set index x with
          | .error e => .error e
          | .ok buf2 =>
            match value.leave mv x buf2 with
            | .error e => .error e
            | .ok buf3 => .ok ({ v1 with vector_ := buf3, size_ := v1.size_ + 1 }, index)

/-- `swap(other)`: `other.vector_.swap(this->vector_)`, then the capacities and the sizes
are exchanged.  Returns `*this` and `other` after the call. -/
def swap (this other : SimpleVector α) : SimpleVector α × SimpleVector α :=
  (⟨other.capacity_, other.size_, (ArrayPtr.swap other.vector_ this.vector_).2⟩,
   ⟨this.capacity_, this.size_, (ArrayPtr.swap other.vector_ this.vector_).1⟩)

/-- The `operator<` of two vectors:
`std::lexicographical_compare(lhs.begin(), lhs.end(), rhs.begin(), rhs.end())`. -/
def opLt [LT α] [DecidableRel (fun x y : α => x < y)] (lhs rhs : SimpleVector α) :
    Except Fault Bool :=
  std_lexicographical_compare lhs.vector_ 0 lhs.size_ rhs.vector_ 0 rhs.size_

/-- The `operator<=` of two vectors: `!(rhs < lhs)`. -/
def opLe [LT α] [DecidableRel (fun x y : α => x < y)] (lhs rhs : SimpleVector α) :
    Except Fault Bool :=
  (opLt rhs lhs).map fun b => !b

/-- The `operator>` of two vectors: `rhs < lhs`. -/
def opGt [LT α] [DecidableRel (fun x y : α => x < y)] (lhs rhs : SimpleVector α) :
    Except Fault Bool :=
  opLt rhs lhs

/-- The `operator>=` of two vectors: `!(lhs < rhs)`. -/
def opGe [LT α] [DecidableRel (fun x y : α => x < y)] (lhs rhs : SimpleVector α) :
    Except Fault Bool :=
  (opLt lhs rhs).map fun b => !b

end SimpleVector

/-! ## Two vector objects of one program -/

/-- The names of the two vector objects of a program. -/
inductive Obj where
  | a
  | b
  deriving DecidableEq

/-- The state of a program with two vector objects: each object has its own buffer, so
the state is the pair of their values. -/
structure Store (α : Type) where
  a : SimpleVector α
  b : SimpleVector α
  deriving DecidableEq

namespace Store

variable {α : Type}

/-- The value of an object. -/
def get (s : Store α) : Obj → SimpleVector α
  | .a => s.a
  | .b => s.b

/-- The state in which object `o` has the value `v`. -/
def put (s : Store α) (o : Obj) (v : SimpleVector α) : Store α :=
  match o with
  | .a => { s with a := v }
  | .b => { s with b := v }

/-- The call `this = rhs` of `operator=(const SimpleVector& rhs)`: unless `this == &rhs`, a
temporary is copy-constructed from `rhs` and swapped with `*this`; the temporary, which
then holds the old buffer of `*this`, ends with the call. -/
def copyAssign [Inhabited α] (s : Store α) (this rhs : Obj) : Except Fault (Store α) :=
  if this ≠ rhs then
    match SimpleVector.copyCtor (s.get rhs) with
    | .error e => .error e
    | .ok tmp => .ok (s.put this (SimpleVector.swap (s.get this) tmp).1)
  else .ok s

/-- The call `this = std::move(rhs)` of `operator=(const SimpleVector&& rhs)`: the body is
that of the copy assignment, and `SimpleVector<Type> tmp(rhs)` copy-constructs, since the
named parameter `rhs` is a constant lvalue inside the body. -/
def moveAssign [Inhabited α] (s : Store α) (this rhs : Obj) : Except Fault (Store α) :=
  if this ≠ rhs then
    match SimpleVector.copyCtor (s.get rhs) with
    | .error e => .error e
    | .ok tmp => .ok (s.put this (SimpleVector.swap (s.get this) tmp).1)
  else .ok s

end Store

/-! ## Vector objects on the free store -/

/-- Modelled from the spec: the free store on which `ArrayPtr` allocates its storage.
Block `p` is `some cells` while an `ArrayPtr` owns it and `none` once it was released. -/
structure Heap (α : Type) where
  blocks : List (Option (List α))
  deriving DecidableEq

namespace Heap

variable {α : Type}

/-- Modelled from the spec: the allocation made by `ArrayPtr(capacity)`: a block with the
slots of `buf` at the address after the last one, which no block has had.  Returns the
free store and the address. -/
def alloc (h : Heap α) (buf : ArrayPtr α) : Heap α × Nat :=
  (⟨h.blocks ++ [some buf.cells]⟩, h.blocks.length)

/-- The buffer stored at address `p`; an address without an owned block is the fault
`Fault.released`. -/
def read (h : Heap α) (p : Nat) : Except Fault (ArrayPtr α) :=
  match h.blocks[p]? with
  | some (some cells) => .ok ⟨cells⟩
  | _ => .error .released

/-- The free store after the block at address `p` took the slots of `buf`. -/
def write (h : Heap α) (p : Nat) (buf : ArrayPtr α) : Heap α :=
  ⟨h.blocks.set p (some buf.cells)⟩

/-- Modelled from the spec: the release of the block at address `p` by the `ArrayPtr` that
owned it. -/
def release (h : Heap α) (p : Nat) : Heap α :=
  ⟨h.blocks.set p none⟩

end Heap

/-- A `SimpleVector` object in memory: its two counters and the address that its member
`vector_` holds. -/
structure VectorObj where
  capacity_ : Nat
  size_ : Nat
  raw_ptr_ : Nat
  deriving DecidableEq

/-- The value of a vector object: its counters and the buffer at its address. -/
def Heap.value {α : Type} (h : Heap α) (o : VectorObj) : Except Fault (SimpleVector α) :=
  match h.read o.raw_ptr_ with
  | .error e => .error e
  | .ok buf => .ok ⟨o.capacity_, o.size_, buf⟩

/-- `SimpleVector(const SimpleVector& other)` on the free store: `vector_(capacity_)`
allocates a block of `other.capacity_` slots, and
`std::copy(other.begin(), other.end(), begin())` copies the elements of the block of
`other` into it.  Returns the free store and the new object. -/
def copyCtorH {α : Type} [Inhabited α] (h : Heap α) (other : VectorObj) :
    Except Fault (Heap α × VectorObj) :=
  match (h.alloc (ArrayPtr.alloc other.capacity_)).1.read other.raw_ptr_ with
  | .error e => .error e
  | .ok src =>
    match (h.alloc (ArrayPtr.alloc other.capacity_)).1.read
        (h.alloc (ArrayPtr.alloc other.capacity_)).2 with
    | .error e => .error e
    | .ok dst =>
      match std_move src 0 other.size_ dst 0 with
      | .error e => .error e
      | .ok dst1 =>
        .ok ((h.alloc (ArrayPtr.alloc other.capacity_)).1.write
              (h.alloc (ArrayPtr.alloc other.capacity_)).2 dst1,
             ⟨other.capacity_, other.size_, (h.alloc (ArrayPtr.alloc other.capacity_)).2⟩)

/-- The member functions that change one vector. -/
inductive Mut (α : Type) where
  | Reserve (new_capacity : Nat)
  | Assign (index : Nat) (x : α)
  | Clear
  | Resize (new_size : Nat)
  | PushBack (item : Ref α)
  | PushBackMove (item : Ref α)
  | Insert (index : Nat) (value : Ref α)
  | InsertMove (index : Nat) (value : Ref α)
  | PopBack
  | Erase (index : Nat)

namespace Mut

variable {α : Type}

/-- What the member function does to the value of the vector (`Assign index x` is the
assignment `v[index] = x` through the reference that `operator[]` returns). -/
def apply [Inhabited α] (mv : α → α) : Mut α → SimpleVector α → Except Fault (SimpleVector α)
  | .Reserve new_capacity, v => SimpleVector.Reserve v new_capacity
  | .Assign index x, v =>
    match v.vector_.set index x with
    | .error e => .error e
    | .ok buf => .ok { v with vector_ := buf }
  | .Clear, v => .ok (SimpleVector.Clear v)
  | .Resize new_size, v => SimpleVector.Resize v new_size
  | .PushBack item, v => SimpleVector.PushBack v item
  | .PushBackMove item, v => SimpleVector.PushBackMove mv v item
  | .Insert index value, v => (SimpleVector.Insert v index value).map Prod.fst
  | .InsertMove index value, v => (SimpleVector.InsertMove mv v index value).map Prod.fst
  | .PopBack, v => SimpleVector.PopBack v
  | .Erase index, v => (SimpleVector.Erase mv v index).map Prod.fst

/-- Whether the member function runs `ResizeCapacity`, by the test that guards the call in
its body. -/
def reallocates : Mut α → SimpleVector α → Bool
  | .Reserve new_capacity, v => decide (v.capacity_ < new_capacity)
  | .Resize new_size, v => decide (¬ new_size < v.capacity_)
  | .PushBack _, v => decide (v.size_ = v.capacity_)
  | .PushBackMove _, v => decide (v.size_ = v.capacity_)
  | .Insert _ _, v => decide (v.size_ = v.capacity_)
  | .InsertMove _ _, v => decide (v.size_ = v.capacity_)
  | _, _ => false

end Mut

/-- A call of the member function `m` on the vector object `o`: the function works on the
counters of `o` and on the block at the address `o` holds.  When it runs `ResizeCapacity`,
the buffer it ends with is a new allocation and the block it started with is released;
otherwise its writes go to the block it started with. -/
def Heap.call {α : Type} [Inhabited α] (mv : α → α) (h : Heap α) (o : VectorObj) (m : Mut α) :
    Except Fault (Heap α × VectorObj) :=
  match h.value o with
  | .error e => .error e
  | .ok v =>
    match m.apply mv v with
    | .error e => .error e
    | .ok v1 =>
      if m.reallocates v then
        .ok ((h.alloc v1.vector_).1.release o.raw_ptr_,
             ⟨v1.capacity_, v1.size_, (h.alloc v1.vector_).2⟩)
      else
        .ok (h.write o.raw_ptr_ v1.vector_, ⟨v1.capacity_, v1.size_, o.raw_ptr_⟩)

/-- A sequence of member function calls on one vector object. -/
def Heap.calls {α : Type} [Inhabited α] (mv : α → α) :
    Heap α → VectorObj → List (Mut α) → Except Fault (Heap α × VectorObj)
  | h, o, [] => .ok (h, o)
  | h, o, m :: ms =>
    match Heap.call mv h o m with
    | .error e => .error e
    | .ok r => Heap.calls mv r.1 r.2 ms

/-! ## Lemmas about the loops and the operations -/

section LoopLemmas
variable {α : Type}

theorem ArrayPtr.get_of_lt (buf : ArrayPtr α) (i : Nat) (h : i < buf.cells.length) :
    buf.get i = .ok (buf.cells.get ⟨i, h⟩) := by
  simp [ArrayPtr.get, List.getElem?_eq_getElem h]

theorem ArrayPtr.set_of_lt (buf : ArrayPtr α) (i : Nat) (x : α) (h : i < buf.cells.length) :
    buf.set i x = .ok ⟨buf.cells.set i x⟩ := by
  simp [ArrayPtr.set, h]

theorem generateLoop_spec (x : α) (n : Nat) : ∀ (first : Nat) (buf : ArrayPtr α),
    first + n ≤ buf.cells.length →
    ∃ r, generateLoop x n first buf = .ok r ∧ r.cells.length = buf.cells.length ∧
      ∀ k, r.cells[k]? = if first ≤ k ∧ k < first + n then some x else buf.cells[k]? := by
  induction n with
  | zero =>
    intro first buf _
    refine ⟨buf, rfl, rfl, fun k => ?_⟩
    rw [if_neg (by omega)]
  | succ n ih =>
    intro first buf h
    have hlt : first < buf.cells.length := by omega
    obtain ⟨r, hr, hlen, hk⟩ := ih (first + 1) ⟨buf.cells.set first x⟩ (by simp; omega)
    refine ⟨r, ?_, by simpa using hlen, fun k => ?_⟩
    · simp only [generateLoop, ArrayPtr.set_of_lt buf first x hlt]
      exact hr
    · rw [hk k]
      by_cases h1 : first + 1 ≤ k ∧ k < first + 1 + n
      · rw [if_pos h1, if_pos (by omega)]
      · by_cases h2 : k = first
        · subst h2
          rw [if_neg h1, if_pos (by omega)]
          simp [List.getElem?_set, hlt]
        · rw [if_neg h1, if_neg (by omega)]
          simp only [List.getElem?_set]
          rw [if_neg (by omega)]

theorem moveLoop_spec (src : ArrayPtr α) (n : Nat) : ∀ (i j : Nat) (dst : ArrayPtr α),
    i + n ≤ src.cells.length → j + n ≤ dst.cells.length →
    ∃ r, moveLoop src n i j dst = .ok r ∧ r.cells.length = dst.cells.length ∧
      ∀ k, r.cells[k]? =
        if j ≤ k ∧ k < j + n then src.cells[i + (k - j)]? else dst.cells[k]? := by
  induction n with
  | zero =>
    intro i j dst _ _
    refine ⟨dst, rfl, rfl, fun k => ?_⟩
    rw [if_neg (by omega)]
  | succ n ih =>
    intro i j dst hs hd
    have hi : i < src.cells.length := by omega
    have hj : j < dst.cells.length := by omega
    obtain ⟨r, hr, hlen, hk⟩ :=
      ih (i + 1) (j + 1) ⟨dst.cells.set j (src.cells.get ⟨i, hi⟩)⟩ (by omega) (by simp; omega)
    refine ⟨r, ?_, by simpa using hlen, fun k => ?_⟩
    · simp only [moveLoop, ArrayPtr.get_of_lt src i hi, ArrayPtr.set_of_lt dst j _ hj]
      exact hr
    · rw [hk k]
      by_cases h1 : j + 1 ≤ k ∧ k < j + 1 + n
      · rw [if_pos h1, if_pos (by omega)]
        have e : i + 1 + (k - (j + 1)) = i + (k - j) := by omega
        rw [e]
      · by_cases h2 : k = j
        · subst h2
          rw [if_neg h1, if_pos (by omega)]
          simp [List.getElem?_set, hj, List.getElem?_eq_getElem hi]
        · rw [if_neg h1, if_neg (by omega)]
          simp only [List.getElem?_set]
          rw [if_neg (by omega)]

/-- Two writes into a list, read back slot by slot. -/
theorem getElem?_set_set (l : List α) (a b : Nat) (x y : α) (ha : a < l.length)
    (hb : b < l.length) (k : Nat) :
    ((l.set a x).set b y)[k]? =
      if k = b then some y else if k = a then some x else l[k]? := by
  simp only [List.getElem?_set, List.length_set]
  by_cases h1 : k = b
  · subst h1
    rw [if_pos rfl, if_pos hb, if_pos rfl]
  · rw [if_neg (fun h => h1 h.symm), if_neg h1]
    by_cases h2 : k = a
    · subst h2
      rw [if_pos rfl, if_pos ha, if_pos rfl]
    · rw [if_neg (fun h => h2 h.symm), if_neg h2]

/-- The forward move loop that shifts `n` slots one place to the left, as `Erase` runs it:
slot `k` of the range receives the old slot `k + 1`, and the last slot moved from is left
with its moved-from value. -/
theorem moveWithinLoop_spec (mv : α → α) (n : Nat) : ∀ (j : Nat) (buf : ArrayPtr α),
    j + 1 + n ≤ buf.cells.length →
    ∃ r, moveWithinLoop mv n (j + 1) j buf = .ok r ∧ r.cells.length = buf.cells.length ∧
      ∀ k, r.cells[k]? =
        if j ≤ k ∧ k < j + n then buf.cells[k + 1]?
        else if k = j + n ∧ 0 < n then (buf.cells[k]?).map mv
        else buf.cells[k]? := by
  induction n with
  | zero =>
    intro j buf _
    refine ⟨buf, rfl, rfl, fun k => ?_⟩
    rw [if_neg (by omega), if_neg (by omega)]
  | succ n ih =>
    intro j buf hs
    have hi : j + 1 < buf.cells.length := by omega
    have hj : j < buf.cells.length := by omega
    have hi2 : j + 1 < (buf.cells.set j (buf.cells.get ⟨j + 1, hi⟩)).length := by
      rw [List.length_set]; exact hi
    have hx : buf.cells[j + 1]? = some (buf.cells.get ⟨j + 1, hi⟩) :=
      List.getElem?_eq_getElem hi
    obtain ⟨r, hr, hlen, hk⟩ :=
      ih (j + 1) ⟨(buf.cells.set j (buf.cells.get ⟨j + 1, hi⟩)).set (j + 1)
        (mv (buf.cells.get ⟨j + 1, hi⟩))⟩ (by simp only [List.length_set]; omega)
    refine ⟨r, ?_, by simpa using hlen, fun k => ?_⟩
    · simp only [moveWithinLoop, ArrayPtr.get_of_lt buf _ hi, ArrayPtr.set_of_lt buf j _ hj,
        ArrayPtr.set_of_lt ⟨buf.cells.set j (buf.cells.get ⟨j + 1, hi⟩)⟩ (j + 1) _ hi2]
      exact hr
    · rw [hk k, getElem?_set_set _ _ _ _ _ hj hi, getElem?_set_set _ _ _ _ _ hj hi]
      by_cases h1 : j + 1 ≤ k ∧ k < j + 1 + n
      · rw [if_pos h1, if_pos (show j ≤ k ∧ k < j + (n + 1) by omega),
          if_neg (show ¬ k + 1 = j + 1 by omega), if_neg (show ¬ k + 1 = j by omega)]
      · rw [if_neg h1]
        by_cases h2 : k = j + 1 + n ∧ 0 < n
        · rw [if_pos h2, if_neg (show ¬ (j ≤ k ∧ k < j + (n + 1)) by omega),
            if_pos (show k = j + (n + 1) ∧ 0 < n + 1 by omega),
            if_neg (show ¬ k = j + 1 by omega), if_neg (show ¬ k = j by omega)]
        · rw [if_neg h2]
          by_cases h3 : k = j
          · rw [if_neg (show ¬ k = j + 1 by omega), if_pos h3,
              if_pos (show j ≤ k ∧ k < j + (n + 1) by omega), h3, hx]
          · by_cases h4 : k = j + 1
            · rw [if_pos h4, if_neg (show ¬ (j ≤ k ∧ k < j + (n + 1)) by omega),
                if_pos (show k = j + (n + 1) ∧ 0 < n + 1 by omega), h4, hx]
              rfl
            · rw [if_neg h4, if_neg h3, if_neg (show ¬ (j ≤ k ∧ k < j + (n + 1)) by omega),
                if_neg (show ¬ (k = j + (n + 1) ∧ 0 < n + 1) by omega)]

/-- The backward move loop that shifts `n` slots one place to the right, as the move-value
`Insert` runs it: slot `k` of the range receives the old slot `k - 1`, and the lowest slot
moved from is left with its moved-from value. -/
theorem moveBackwardLoop_spec (mv : α → α) (n : Nat) : ∀ (last : Nat) (buf : ArrayPtr α),
    n ≤ last → last + 1 ≤ buf.cells.length →
    ∃ r, moveBackwardLoop mv n last (last + 1) buf = .ok r ∧
      r.cells.length = buf.cells.length ∧
      ∀ k, r.cells[k]? =
        if last - n < k ∧ k ≤ last then buf.cells[k - 1]?
        else if k = last - n ∧ 0 < n then (buf.cells[k]?).map mv
        else buf.cells[k]? := by
  induction n with
  | zero =>
    intro last buf _ _
    refine ⟨buf, rfl, rfl, fun k => ?_⟩
    rw [if_neg (by omega), if_neg (by omega)]
  | succ n ih =>
    intro last buf hn hl
    have hi : last - 1 < buf.cells.length := by omega
    have hj : last < buf.cells.length := by omega
    have hi2 : last - 1 < (buf.cells.set last (buf.cells.get ⟨last - 1, hi⟩)).length := by
      rw [List.length_set]; exact hi
    have hx : buf.cells[last - 1]? = some (buf.cells.get ⟨last - 1, hi⟩) :=
      List.getElem?_eq_getElem hi
    obtain ⟨r, hr, hlen, hk⟩ :=
      ih (last - 1) ⟨(buf.cells.set last (buf.cells.get ⟨last - 1, hi⟩)).set (last - 1)
        (mv (buf.cells.get ⟨last - 1, hi⟩))⟩ (by omega)
        (by simp only [List.length_set]; omega)
    have e1 : last - 1 + 1 = last := by omega
    rw [e1] at hr
    refine ⟨r, ?_, by simpa using hlen, fun k => ?_⟩
    · simp only [moveBackwardLoop, Nat.add_sub_cancel, ArrayPtr.get_of_lt buf _ hi,
        ArrayPtr.set_of_lt buf last _ hj,
        ArrayPtr.set_of_lt ⟨buf.cells.set last (buf.cells.get ⟨last - 1, hi⟩)⟩ (last - 1) _ hi2]
      exact hr
    · rw [hk k, getElem?_set_set _ _ _ _ _ hj hi, getElem?_set_set _ _ _ _ _ hj hi]
      by_cases h1 : last - 1 - n < k ∧ k ≤ last - 1
      · rw [if_pos h1, if_pos (show last - (n + 1) < k ∧ k ≤ last by omega),
          if_neg (show ¬ k - 1 = last - 1 by omega), if_neg (show ¬ k - 1 = last by omega)]
      · rw [if_neg h1]
        by_cases h2 : k = last - 1 - n ∧ 0 < n
        · rw [if_pos h2, if_neg (show ¬ (last - (n + 1) < k ∧ k ≤ last) by omega),
            if_pos (show k = last - (n + 1) ∧ 0 < n + 1 by omega),
            if_neg (show ¬ k = last - 1 by omega), if_neg (show ¬ k = last by omega)]
        · rw [if_neg h2]
          by_cases h3 : k = last
          · rw [if_neg (show ¬ k = last - 1 by omega), if_pos h3,
              if_pos (show last - (n + 1) < k ∧ k ≤ last by omega), h3, hx]
          · by_cases h4 : k = last - 1
            · rw [if_pos h4, if_neg (show ¬ (last - (n + 1) < k ∧ k ≤ last) by omega),
                if_pos (show k = last - (n + 1) ∧ 0 < n + 1 by omega), h4, hx]
              rfl
            · rw [if_neg h4, if_neg h3,
                if_neg (show ¬ (last - (n + 1) < k ∧ k ≤ last) by omega),
                if_neg (show ¬ (k = last - (n + 1) ∧ 0 < n + 1) by omega)]

theorem copyBackwardLoop_spec (n : Nat) : ∀ (last d_last : Nat) (buf : ArrayPtr α),
    n ≤ last → last ≤ d_last → d_last ≤ buf.cells.length →
    ∃ r, copyBackwardLoop n last d_last buf = .ok r ∧ r.cells.length = buf.cells.length ∧
      ∀ k, r.cells[k]? =
        if d_last - n ≤ k ∧ k < d_last then buf.cells[last - (d_last - k)]?
        else buf.cells[k]? := by
  induction n with
  | zero =>
    intro last d_last buf _ _ _
    refine ⟨buf, rfl, rfl, fun k => ?_⟩
    rw [if_neg (by omega)]
  | succ n ih =>
    intro last d_last buf hn hl hd
    have hi : last - 1 < buf.cells.length := by omega
    have hj : d_last - 1 < buf.cells.length := by omega
    obtain ⟨r, hr, hlen, hk⟩ :=
      ih (last - 1) (d_last - 1) ⟨buf.cells.set (d_last - 1) (buf.cells.get ⟨last - 1, hi⟩)⟩
        (by omega) (by omega) (by simp; omega)
    refine ⟨r, ?_, by simpa using hlen, fun k => ?_⟩
    · simp only [copyBackwardLoop, ArrayPtr.get_of_lt buf _ hi, ArrayPtr.set_of_lt buf _ _ hj]
      exact hr
    · rw [hk k]
      by_cases h1 : d_last - 1 - n ≤ k ∧ k < d_last - 1
      · rw [if_pos h1, if_pos (by omega)]
        have e : last - 1 - (d_last - 1 - k) = last - (d_last - k) := by omega
        rw [e]
        simp only [List.getElem?_set]
        rw [if_neg (by omega)]
      · by_cases h2 : k = d_last - 1
        · subst h2
          rw [if_neg h1, if_pos (by omega)]
          have e : last - (d_last - (d_last - 1)) = last - 1 := by omega
          rw [e]
          simp [List.getElem?_set, hj, List.getElem?_eq_getElem hi]
        · rw [if_neg h1, if_neg (by omega)]
          simp only [List.getElem?_set]
          rw [if_neg (by omega)]

theorem take_drop_succ (l : List α) (i n : Nat) (h : i < l.length) :
    (l.drop i).take (n + 1) = l.get ⟨i, h⟩ :: (l.drop (i + 1)).take n := by
  rw [List.drop_eq_getElem_cons h, List.take_succ_cons]
  rfl

theorem lexLoop_eq_lexList [LT α] [DecidableRel (fun x y : α => x < y)] (a b : ArrayPtr α)
    (n1 : Nat) : ∀ (i n2 j : Nat), i + n1 ≤ a.cells.length → j + n2 ≤ b.cells.length →
      lexLoop a b n1 i n2 j =
        .ok (lexList ((a.cells.drop i).take n1) ((b.cells.drop j).take n2)) := by
  induction n1 with
  | zero =>
    intro i n2 j _ hb
    simp only [lexLoop, List.take_zero, lexList, List.length_take, List.length_drop]
    have : min n2 (b.cells.length - j) = n2 := by omega
    rw [this]
  | succ n1 ih =>
    intro i n2 j ha hb
    cases n2 with
    | zero =>
      have hi : i < a.cells.length := by omega
      rw [take_drop_succ _ _ _ hi]
      simp only [lexLoop, List.take_zero, lexList]
    | succ n2 =>
      have hi : i < a.cells.length := by omega
      have hj : j < b.cells.length := by omega
      rw [take_drop_succ _ _ _ hi, take_drop_succ _ _ _ hj]
      simp only [lexLoop, ArrayPtr.get_of_lt a i hi, ArrayPtr.get_of_lt b j hj, lexList]
      split
      · rfl
      · split
        · rfl
        · exact ih (i + 1) n2 (j + 1) (by omega) (by omega)

/-- The comparison of `lexList` is the lexicographic strict order: the first list is a
proper initial segment of the second, or at the first index where they differ the element
of the first list is the smaller one. -/
theorem lexList_iff [LinearOrder α] : ∀ (xs ys : List α),
    lexList xs ys = true ↔
      (xs.length < ys.length ∧ ys.take xs.length = xs) ∨
      (∃ (i : Nat) (x y : α), xs[i]? = some x ∧ ys[i]? = some y ∧ x < y ∧
        ∀ j : Nat, j < i → xs[j]? = ys[j]?) := by
  intro xs
  induction xs with
  | nil =>
    intro ys
    simp only [lexList, decide_eq_true_eq, List.length_nil, List.take_zero, and_true]
    constructor
    · intro h; left; omega
    · rintro (h | ⟨i, x, y, hx, _⟩)
      · omega
      · simp at hx
  | cons x xs ih =>
    intro ys
    cases ys with
    | nil =>
      simp only [lexList, List.length_cons, List.length_nil]
      constructor
      · intro h; cases h
      · rintro (⟨h, _⟩ | ⟨i, x', y', _, hy, _⟩)
        · omega
        · simp at hy
    | cons y ys =>
      simp only [lexList]
      by_cases hxy : x < y
      · rw [if_pos hxy]
        constructor
        · intro _
          right
          exact ⟨0, x, y, List.getElem?_cons_zero, List.getElem?_cons_zero, hxy,
            fun j hj => absurd hj (Nat.not_lt_zero j)⟩
        · intro _; rfl
      · rw [if_neg hxy]
        by_cases hyx : y < x
        · rw [if_pos hyx]
          constructor
          · intro h; cases h
          · rintro (⟨_, ht⟩ | ⟨i, x', y', hx', hy', hlt, hall⟩)
            · simp only [List.length_cons, List.take_succ_cons, List.cons.injEq] at ht
              rw [ht.1] at hyx
              exact absurd hyx (lt_irrefl x)
            · cases i with
              | zero =>
                simp only [List.getElem?_cons_zero, Option.some.injEq] at hx' hy'
                rw [← hx', ← hy'] at hlt
                exact absurd hlt hxy
              | succ i =>
                have h0 := hall 0 (Nat.succ_pos i)
                simp only [List.getElem?_cons_zero, Option.some.injEq] at h0
                rw [h0] at hyx
                exact absurd hyx (lt_irrefl y)
        · rw [if_neg hyx]
          have hEq : x = y := le_antisymm (not_lt.mp hyx) (not_lt.mp hxy)
          subst hEq
          rw [ih ys]
          constructor
          · rintro (⟨hl, ht⟩ | ⟨i, x', y', hx', hy', hlt, hall⟩)
            · left
              refine ⟨by simp only [List.length_cons]; omega, ?_⟩
              simp only [List.length_cons, List.take_succ_cons, ht]
            · right
              refine ⟨i + 1, x', y', by simpa using hx', by simpa using hy', hlt, ?_⟩
              intro j hj
              cases j with
              | zero => simp only [List.getElem?_cons_zero]
              | succ j =>
                simp only [List.getElem?_cons_succ]
                exact hall j (by omega)
          · rintro (⟨hl, ht⟩ | ⟨i, x', y', hx', hy', hlt, hall⟩)
            · left
              simp only [List.length_cons, List.take_succ_cons, List.cons.injEq,
                true_and] at hl ht
              exact ⟨by omega, ht⟩
            · cases i with
              | zero =>
                simp only [List.getElem?_cons_zero, Option.some.injEq] at hx' hy'
                rw [← hx', ← hy'] at hlt
                exact absurd hlt (lt_irrefl x)
              | succ i =>
                right
                refine ⟨i, x', y', by simpa using hx', by simpa using hy', hlt, ?_⟩
                intro j hj
                have := hall (j + 1) (by omega)
                simpa using this

end LoopLemmas

namespace SimpleVector

section OperationLemmas
variable {α : Type}

theorem ResizeCapacity_spec [Inhabited α] (v : SimpleVector α) (n : Nat)
    (hs : v.size_ ≤ v.vector_.cells.length) (hn : v.size_ ≤ n) :
    ResizeCapacity v n =
      .ok ⟨n, v.size_, ⟨v.contents ++ List.replicate (n - v.size_) default⟩⟩ := by
  obtain ⟨r, hr, hrl, hrk⟩ :=
    generateLoop_spec (default : α) n 0 (ArrayPtr.alloc n) (by simp [ArrayPtr.alloc])
  obtain ⟨q, hq, hql, hqk⟩ :=
    moveLoop_spec v.vector_ v.size_ 0 0 r (by omega)
      (by rw [hrl]; simp [ArrayPtr.alloc]; omega)
  have hcells : q.cells = v.contents ++ List.replicate (n - v.size_) default := by
    apply List.ext_getElem?
    intro k
    rw [hqk k, hrk k]
    by_cases h1 : k < v.size_
    · rw [if_pos (by omega)]
      simp [contents, List.getElem?_append, List.getElem?_take, h1, hs]
    · rw [if_neg (by omega)]
      have hlen : (v.contents).length = v.size_ := by simp [contents, hs]
      by_cases h2 : k < n
      · rw [if_pos (by omega), List.getElem?_append_right (by omega), hlen,
          List.getElem?_replicate, if_pos (by omega)]
      · rw [if_neg (by omega), List.getElem?_append_right (by omega), hlen]
        simp only [ArrayPtr.alloc, List.getElem?_replicate]
        rw [if_neg (by omega), if_neg (by omega)]
  have hq2 : q = ⟨v.contents ++ List.replicate (n - v.size_) default⟩ := by
    cases q; simp only [ArrayPtr.mk.injEq]; exact hcells
  simp only [ResizeCapacity, std_generate, std_move, Nat.sub_zero, hr, hq, hq2]


theorem contents_length (v : SimpleVector α) (h : v.WF) : v.contents.length = v.size_ := by
  simp [contents, h.1, h.2]

theorem take_set_succ (l : List α) (n : Nat) (x : α) (h : n < l.length) :
    (l.set n x).take (n + 1) = l.take n ++ [x] := by
  have hm : min n l.length = n := Nat.min_eq_left (Nat.le_of_lt h)
  apply List.ext_getElem?
  intro k
  simp only [List.getElem?_take, List.getElem?_set, List.getElem?_append, List.length_take, hm]
  by_cases h1 : k < n
  · rw [if_pos (by omega), if_neg (by omega), if_pos h1, if_pos h1]
  · by_cases h2 : k = n
    · subst h2; simp [h]
    · rw [if_neg (by omega), if_neg h1]
      have : k - n = (k - n - 1) + 1 := by omega
      rw [this]; simp

theorem take_append_replicate (l : List α) (n m : Nat) (x : α) (h : n ≤ l.length) :
    (l.take n ++ List.replicate m x).take n = l.take n := by
  have : (l.take n).length = n := by simp [h]
  conv_lhs => rw [← this]
  simp

/-- The growth step shared by `PushBack` and `Insert`. -/
theorem grow_spec [Inhabited α] (v : SimpleVector α) (h : v.WF) :
    ∃ v1, (if v.size_ = v.capacity_ then
             ResizeCapacity v (if v.size_ = 0 then 1 else v.size_ * 2)
           else Except.ok v) = .ok v1 ∧
      v1.size_ = v.size_ ∧ v1.contents = v.contents ∧
      v1.vector_.cells.length = v1.capacity_ ∧ v1.size_ < v1.capacity_ ∧
      v1.capacity_ = (if v.size_ < v.capacity_ then v.capacity_
                      else if v.capacity_ = 0 then 1 else 2 * v.capacity_) ∧
      (v.size_ < v.capacity_ → v1 = v) := by
  obtain ⟨hl, hle⟩ := h
  by_cases hc : v.size_ = v.capacity_
  · rw [if_pos hc, ResizeCapacity_spec v _ (by omega) (by split <;> omega)]
    have hcl : v.contents.length = v.size_ := contents_length v ⟨hl, hle⟩
    refine ⟨_, rfl, rfl, ?_, ?_, ?_, ?_, ?_⟩
    · exact take_append_replicate v.vector_.cells v.size_ _ _ (by omega)
    · show (v.contents ++ List.replicate _ default).length =
        (if v.size_ = 0 then 1 else v.size_ * 2)
      simp only [List.length_append, List.length_replicate, hcl]
      split <;> omega
    · show v.size_ < (if v.size_ = 0 then 1 else v.size_ * 2)
      split <;> omega
    · show (if v.size_ = 0 then 1 else v.size_ * 2) =
        (if v.size_ < v.capacity_ then v.capacity_
         else if v.capacity_ = 0 then 1 else 2 * v.capacity_)
      rw [if_neg (show ¬ v.size_ < v.capacity_ by omega), ← hc]
      by_cases h0 : v.size_ = 0
      · rw [if_pos h0, if_pos h0]
      · rw [if_neg h0, if_neg h0]; omega
    · intro h; omega
  · rw [if_neg hc]
    refine ⟨v, rfl, rfl, rfl, hl, by omega, ?_, fun _ => rfl⟩
    rw [if_pos (by omega)]

/-- What `PushBack` does on a vector that satisfies the class invariant. -/
theorem PushBack_spec [Inhabited α] (v : SimpleVector α) (x : α) (h : v.WF) :
    ∃ v1, PushBack v (.obj x) = .ok v1 ∧ v1.WF ∧ v1.size_ = v.size_ + 1 ∧
      v1.contents = v.contents ++ [x] ∧
      v1.capacity_ = (if v.size_ < v.capacity_ then v.capacity_
                      else if v.capacity_ = 0 then 1 else 2 * v.capacity_) := by
  obtain ⟨g, hg, hgs, hgc, hgl, hglt, hgcap, _⟩ := grow_spec v h
  have hlt : g.size_ < g.vector_.cells.length := by omega
  refine ⟨{ g with vector_ := ⟨g.vector_.cells.set g.size_ x⟩, size_ := g.size_ + 1 },
    ?_, ?_, ?_, ?_, hgcap⟩
  · simp only [PushBack, hg, Ref.read, ArrayPtr.set_of_lt _ _ _ hlt]
  · exact ⟨by simpa using hgl, by show g.size_ + 1 ≤ g.capacity_; omega⟩
  · show g.size_ + 1 = v.size_ + 1
    rw [hgs]
  · show ((g.vector_.cells.set g.size_ x)).take (g.size_ + 1) = _
    rw [take_set_succ _ _ _ hlt, ← hgc]
    rfl

/-- For an object outside the buffer the two `PushBack` overloads give the same vector. -/
theorem PushBackMove_obj [Inhabited α] (mv : α → α) (v : SimpleVector α) (x : α) :
    PushBackMove mv v (.obj x) = PushBack v (.obj x) := by
  unfold PushBackMove PushBack
  cases (if v.size_ = v.capacity_ then
      ResizeCapacity v (if v.size_ = 0 then 1 else v.size_ * 2) else Except.ok v) with
  | error e => rfl
  | ok g =>
    simp only [Ref.read, Ref.leave]

/-- While the vector has spare capacity, `PushBack` of one of its own slots appends the
value of that slot. -/
theorem PushBack_slot [Inhabited α] (v : SimpleVector α) (j : Nat) (x : α)
    (hlt : v.size_ < v.capacity_) (hx : v.index j = .ok x) :
    PushBack v (.slot j) = PushBack v (.obj x) := by
  have hne : ¬ v.size_ = v.capacity_ := by omega
  have hd : decide (v.size_ = v.capacity_) = false := decide_eq_false hne
  unfold PushBack
  simp only [if_neg hne, hd, Ref.read, show v.vector_.get j = Except.ok x from hx]

/-- On a full vector, `PushBack` of one of its own slots reads the slot after the growth
step has released the buffer. -/
theorem PushBack_slot_released [Inhabited α] (v : SimpleVector α) (j : Nat) (h : v.WF)
    (hfull : v.size_ = v.capacity_) : PushBack v (.slot j) = .error .released := by
  obtain ⟨g, hg, _⟩ := grow_spec v h
  have hd : decide (v.size_ = v.capacity_) = true := decide_eq_true hfull
  simp only [PushBack, hg, hd, Ref.read]

/-- Whatever the argument, a `PushBack` that returns leaves a vector satisfying the class
invariant, one element longer, with the capacity of the growth step. -/
theorem PushBack_ok [Inhabited α] (v u : SimpleVector α) (r : Ref α) (h : v.WF)
    (hu : PushBack v r = .ok u) :
    u.WF ∧ u.size_ = v.size_ + 1 ∧
      u.capacity_ = (if v.size_ < v.capacity_ then v.capacity_
                     else if v.capacity_ = 0 then 1 else 2 * v.capacity_) := by
  have hobj : ∀ x, PushBack v (.obj x) = .ok u → u.WF ∧ u.size_ = v.size_ + 1 ∧
      u.capacity_ = (if v.size_ < v.capacity_ then v.capacity_
                     else if v.capacity_ = 0 then 1 else 2 * v.capacity_) := by
    intro x hx
    obtain ⟨v1, h1, hw, hs, _, hc⟩ := PushBack_spec v x h
    rw [hx] at h1
    cases h1
    exact ⟨hw, hs, hc⟩
  cases r with
  | obj x => exact hobj x hu
  | slot j =>
    by_cases hfull : v.size_ = v.capacity_
    · rw [PushBack_slot_released v j h hfull] at hu
      cases hu
    · have hlt : v.size_ < v.capacity_ := by have := h.2; omega
      cases hx : v.index j with
      | error e =>
        have hd : decide (v.size_ = v.capacity_) = false := decide_eq_false hfull
        simp only [PushBack, if_neg hfull, hd, Ref.read,
          show v.vector_.get j = Except.error e from hx] at hu
        cases hu
      | ok x =>
        rw [PushBack_slot v j x hlt hx] at hu
        exact hobj x hu

/-- Whatever the argument, a move-value `PushBack` that returns leaves a vector satisfying
the class invariant, one element longer, with the capacity of the growth step. -/
theorem PushBackMove_ok [Inhabited α] (mv : α → α) (v u : SimpleVector α) (r : Ref α)
    (h : v.WF) (hu : PushBackMove mv v r = .ok u) :
    u.WF ∧ u.size_ = v.size_ + 1 ∧
      u.capacity_ = (if v.size_ < v.capacity_ then v.capacity_
                     else if v.capacity_ = 0 then 1 else 2 * v.capacity_) := by
  obtain ⟨g, hg, hgs, hgc, hgl, hglt, hgcap, _⟩ := grow_spec v h
  have hlt : g.size_ < g.vector_.cells.length := by omega
  simp only [PushBackMove, hg] at hu
  cases hx : r.read (decide (v.size_ = v.capacity_)) g.vector_ with
  | error e => rw [hx] at hu; cases hu
  | ok x =>
    simp only [hx, ArrayPtr.set_of_lt _ _ _ hlt] at hu
    cases r with
    | obj y =>
      simp only [Ref.leave] at hu
      cases hu
      exact ⟨⟨by simpa using hgl, by show g.size_ + 1 ≤ g.capacity_; omega⟩,
        by show g.size_ + 1 = v.size_ + 1; rw [hgs], hgcap⟩
    | slot j =>
      simp only [Ref.leave] at hu
      by_cases hj : j < (g.vector_.cells.set g.size_ x).length
      · rw [ArrayPtr.set_of_lt ⟨g.vector_.cells.set g.size_ x⟩ j _ hj] at hu
        cases hu
        exact ⟨⟨by simpa using hgl, by show g.size_ + 1 ≤ g.capacity_; omega⟩,
          by show g.size_ + 1 = v.size_ + 1; rw [hgs], hgcap⟩
      · simp only [ArrayPtr.set, if_neg hj] at hu
        cases hu

/-- The list obtained from a buffer by shifting `[i, n)` one slot to the right and then
writing `x` at `i`, cut at `n + 1`, is the old prefix of length `n` with `x` spliced in. -/
theorem take_insert_shift (l r : List α) (i n : Nat) (x : α) (hi : i ≤ n) (hn : n < l.length)
    (hlen : r.length = l.length)
    (hr : ∀ k, r[k]? = if i + 1 ≤ k ∧ k < n + 1 then l[k - 1]? else l[k]?) :
    (r.set i x).take (n + 1) = (l.take n).take i ++ [x] ++ (l.take n).drop i := by
  apply List.ext_getElem?
  intro k
  have hm1 : min i n = i := by omega
  have hm2 : min n l.length = n := by omega
  simp only [List.getElem?_take, List.getElem?_set, hr k, List.append_assoc,
    List.getElem?_append, List.length_take, hm1, hm2, List.singleton_append, hlen]
  by_cases h1 : k < i
  · rw [if_pos (by omega), if_neg (by omega), if_neg (by omega), if_pos h1, if_pos h1,
      if_pos (by omega)]
  · rw [if_neg h1]
    by_cases h2 : k = i
    · subst h2
      rw [if_pos (by omega), if_pos rfl, if_pos (by omega)]
      simp
    · rw [if_neg (show ¬ i = k by omega)]
      have e : k - i = (k - i - 1) + 1 := by omega
      rw [e, List.getElem?_cons_succ, List.getElem?_drop, List.getElem?_take]
      by_cases h3 : k < n + 1
      · rw [if_pos h3, if_pos (by omega), if_pos (by omega)]
        have e2 : i + (k - i - 1) = k - 1 := by omega
        rw [e2]
      · rw [if_neg h3, if_neg (by omega)]

/-- The steps of the copy-value `Insert` on a vector that satisfies the class invariant:
the vector `g` after the growth step, the buffer `r` after `std::copy_backward`, and the
outcome for every argument in terms of what reading the argument gives. -/
theorem Insert_steps [Inhabited α] (v : SimpleVector α) (i : Nat) (h : v.WF)
    (hi : i ≤ v.size_) :
    ∃ (g : SimpleVector α) (r : ArrayPtr α),
      (if v.size_ = v.capacity_ then ResizeCapacity v (if v.size_ = 0 then 1 else v.size_ * 2)
       else Except.ok v) = .ok g ∧
      g.size_ = v.size_ ∧ g.vector_.cells.length = g.capacity_ ∧ g.size_ < g.capacity_ ∧
      g.capacity_ = (if v.size_ < v.capacity_ then v.capacity_
                     else if v.capacity_ = 0 then 1 else 2 * v.capacity_) ∧
      (v.size_ < v.capacity_ → g = v) ∧
      r.cells.length = g.vector_.cells.length ∧
      (∀ k, r.cells[k]? =
        if i + 1 ≤ k ∧ k < g.size_ + 1 then g.vector_.cells[k - 1]? else g.vector_.cells[k]?) ∧
      (∀ x, (⟨g.capacity_, g.size_ + 1, ⟨r.cells.set i x⟩⟩ : SimpleVector α).WF ∧
        (⟨g.capacity_, g.size_ + 1, ⟨r.cells.set i x⟩⟩ : SimpleVector α).contents =
          v.contents.take i ++ [x] ++ v.contents.drop i) ∧
      (∀ ref : Ref α, Insert v i ref =
        match ref.read (decide (v.size_ = v.capacity_)) r with
        | Except.error e => Except.error e
        | Except.ok x => Except.ok (⟨g.capacity_, g.size_ + 1, ⟨r.cells.set i x⟩⟩, i)) := by
  obtain ⟨g, hg, hgs, hgc, hgl, hglt, hgcap, hsame⟩ := grow_spec v h
  obtain ⟨r, hr, hrl, hrk⟩ := copyBackwardLoop_spec (g.size_ - i) g.size_ (g.size_ + 1)
    g.vector_ (by omega) (by omega) (by omega)
  have hil : i < r.cells.length := by omega
  have hrk2 : ∀ k, r.cells[k]? =
      if i + 1 ≤ k ∧ k < g.size_ + 1 then g.vector_.cells[k - 1]? else g.vector_.cells[k]? := by
    intro k
    rw [hrk k]
    by_cases h1 : i + 1 ≤ k ∧ k < g.size_ + 1
    · rw [if_pos (by omega), if_pos h1]
      have e : g.size_ - (g.size_ + 1 - k) = k - 1 := by omega
      rw [e]
    · rw [if_neg (by omega), if_neg h1]
  refine ⟨g, r, hg, hgs, hgl, hglt, hgcap, hsame, hrl, hrk2, ?_, ?_⟩
  · intro x
    refine ⟨⟨by show (r.cells.set i x).length = g.capacity_; simp; omega,
      by show g.size_ + 1 ≤ g.capacity_; omega⟩, ?_⟩
    show (r.cells.set i x).take (g.size_ + 1) = _
    rw [← hgc]
    exact take_insert_shift g.vector_.cells r.cells i g.size_ x (by omega) (by omega) hrl hrk2
  · intro ref
    unfold Insert
    rw [if_neg (show ¬ ¬ i ≤ v.size_ by omega), hg]
    simp only [std_copy_backward, hr]
    cases ref.read (decide (v.size_ = v.capacity_)) r with
    | error e => rfl
    | ok x => simp only [ArrayPtr.set_of_lt _ _ _ hil]

/-- What the copy-value `Insert` does, on a vector that satisfies the class invariant, with
an object outside the buffer. -/
theorem Insert_spec [Inhabited α] (v : SimpleVector α) (i : Nat) (x : α) (h : v.WF)
    (hi : i ≤ v.size_) :
    ∃ v1, Insert v i (.obj x) = .ok (v1, i) ∧ v1.WF ∧ v1.size_ = v.size_ + 1 ∧
      v1.contents = v.contents.take i ++ [x] ++ v.contents.drop i ∧
      v1.capacity_ = (if v.size_ < v.capacity_ then v.capacity_
                      else if v.capacity_ = 0 then 1 else 2 * v.capacity_) := by
  obtain ⟨g, r, _, hgs, _, _, hgcap, _, _, _, hres, hall⟩ := Insert_steps v i h hi
  refine ⟨_, ?_, (hres x).1, ?_, (hres x).2, hgcap⟩
  · rw [hall (.obj x)]
    rfl
  · show g.size_ + 1 = v.size_ + 1
    rw [hgs]

/-- Whatever the argument, a copy-value `Insert` that returns leaves a vector satisfying
the class invariant, one element longer, with the capacity of the growth step, and returns
the index it was given. -/
theorem Insert_ok [Inhabited α] (v u : SimpleVector α) (i k : Nat) (ref : Ref α) (h : v.WF)
    (hi : i ≤ v.size_) (hu : Insert v i ref = .ok (u, k)) :
    u.WF ∧ u.size_ = v.size_ + 1 ∧ k = i ∧
      u.capacity_ = (if v.size_ < v.capacity_ then v.capacity_
                     else if v.capacity_ = 0 then 1 else 2 * v.capacity_) := by
  obtain ⟨g, r, _, hgs, _, _, hgcap, _, _, _, hres, hall⟩ := Insert_steps v i h hi
  rw [hall ref] at hu
  cases hx : ref.read (decide (v.size_ = v.capacity_)) r with
  | error e => rw [hx] at hu; cases hu
  | ok x =>
    rw [hx] at hu
    cases hu
    exact ⟨(hres x).1, by show g.size_ + 1 = v.size_ + 1; rw [hgs], rfl, hgcap⟩

/-- The steps of the move-value `Insert` on a vector that satisfies the class invariant:
the vector `g` after the growth step, the buffer `r` after `std::move_backward`, which
agrees with the buffer after `std::copy_backward` except at slot `i`, and the outcome for
every argument. -/
theorem InsertMove_steps [Inhabited α] (mv : α → α) (v : SimpleVector α) (i : Nat)
    (h : v.WF) (hi : i < v.size_) :
    ∃ (g : SimpleVector α) (r : ArrayPtr α),
      (if v.size_ = v.capacity_ then ResizeCapacity v (if v.size_ = 0 then 1 else v.size_ * 2)
       else Except.ok v) = .ok g ∧
      g.size_ = v.size_ ∧ g.vector_.cells.length = g.capacity_ ∧ g.size_ < g.capacity_ ∧
      g.capacity_ = (if v.size_ < v.capacity_ then v.capacity_
                     else if v.capacity_ = 0 then 1 else 2 * v.capacity_) ∧
      (v.size_ < v.capacity_ → g = v) ∧
      r.cells.length = g.vector_.cells.length ∧
      (∀ k, r.cells[k]? =
        if i + 1 ≤ k ∧ k < g.size_ + 1 then g.vector_.cells[k - 1]?
        else if k = i then (g.vector_.cells[k]?).map mv else g.vector_.cells[k]?) ∧
      (∀ ref : Ref α, InsertMove mv v i ref =
        match ref.read (decide (v.size_ = v.capacity_)) r with
        | Except.error e => Except.error e
        | Except.ok x =>
          match ref.leave mv x ⟨r.cells.set i x⟩ with
          | Except.error e => Except.error e
          | Except.ok buf => Except.ok (⟨g.capacity_, g.size_ + 1, buf⟩, i)) := by
  obtain ⟨g, hg, hgs, hgc, hgl, hglt, hgcap, hsame⟩ := grow_spec v h
  obtain ⟨r, hr, hrl, hrk⟩ := moveBackwardLoop_spec mv (g.size_ - i) g.size_
    g.vector_ (by omega) (by omega)
  have hil : i < r.cells.length := by omega
  refine ⟨g, r, hg, hgs, hgl, hglt, hgcap, hsame, hrl, ?_, ?_⟩
  · intro k
    rw [hrk k]
    by_cases h1 : i + 1 ≤ k ∧ k < g.size_ + 1
    · rw [if_pos (by omega), if_pos h1]
    · rw [if_neg (by omega), if_neg h1]
      by_cases h2 : k = i
      · rw [if_pos (by omega), if_pos h2]
      · rw [if_neg (by omega), if_neg h2]
  · intro ref
    unfold InsertMove
    rw [if_neg (show ¬ ¬ i < v.size_ by omega), hg]
    simp only [std_move_backward, hr]
    cases ref.read (decide (v.size_ = v.capacity_)) r with
    | error e => rfl
    | ok x =>
      simp only [ArrayPtr.set_of_lt _ _ _ hil]

/-- Whatever the argument, a move-value `Insert` that returns leaves a vector satisfying
the class invariant, one element longer, with the capacity of the growth step, and returns
the index it was given. -/
theorem InsertMove_ok [Inhabited α] (mv : α → α) (v u : SimpleVector α) (i k : Nat)
    (ref : Ref α) (h : v.WF) (hi : i < v.size_) (hu : InsertMove mv v i ref = .ok (u, k)) :
    u.WF ∧ u.size_ = v.size_ + 1 ∧ k = i ∧
      u.capacity_ = (if v.size_ < v.capacity_ then v.capacity_
                     else if v.capacity_ = 0 then 1 else 2 * v.capacity_) := by
  obtain ⟨g, r, _, hgs, hgl, hglt, hgcap, _, hrl, _, hall⟩ := InsertMove_steps mv v i h hi
  rw [hall ref] at hu
  cases hx : ref.read (decide (v.size_ = v.capacity_)) r with
  | error e => rw [hx] at hu; cases hu
  | ok x =>
    rw [hx] at hu
    dsimp only at hu
    cases ref with
    | obj y =>
      simp only [Ref.leave] at hu
      cases hu
      exact ⟨⟨by show (r.cells.set i x).length = g.capacity_; rw [List.length_set]; omega,
        by show g.size_ + 1 ≤ g.capacity_; omega⟩,
        by show g.size_ + 1 = v.size_ + 1; rw [hgs], rfl, hgcap⟩
    | slot j =>
      simp only [Ref.leave] at hu
      by_cases hj : j < (r.cells.set i x).length
      · rw [ArrayPtr.set_of_lt ⟨r.cells.set i x⟩ j _ hj] at hu
        cases hu
        exact ⟨⟨by show ((r.cells.set i x).set j (mv x)).length = g.capacity_
                   rw [List.length_set, List.length_set]; omega,
          by show g.size_ + 1 ≤ g.capacity_; omega⟩,
          by show g.size_ + 1 = v.size_ + 1; rw [hgs], rfl, hgcap⟩
      · simp only [ArrayPtr.set, if_neg hj] at hu
        cases hu

/-- With an object outside the buffer and a position below the size, the two `Insert`
overloads give the same vector and the same index, whatever a moved-from element holds. -/
theorem InsertMove_obj [Inhabited α] (mv : α → α) (v : SimpleVector α) (i : Nat) (x : α)
    (h : v.WF) (hi : i < v.size_) : InsertMove mv v i (.obj x) = Insert v i (.obj x) := by
  obtain ⟨g, r, hg, _, _, _, _, _, hrl, hrk, _, hall⟩ := Insert_steps v i h (Nat.le_of_lt hi)
  obtain ⟨g2, r2, hg2, _, _, _, _, _, hrl2, hrk2, hall2⟩ := InsertMove_steps mv v i h hi
  have hgg : g2 = g := by
    rw [hg] at hg2
    cases hg2
    rfl
  subst hgg
  have hcells : r2.cells.set i x = r.cells.set i x := by
    apply List.ext_getElem?
    intro k
    simp only [List.getElem?_set]
    by_cases hk : i = k
    · rw [if_pos hk, if_pos hk, hrl, hrl2]
    · rw [if_neg hk, if_neg hk, hrk k, hrk2 k]
      by_cases h1 : i + 1 ≤ k ∧ k < g2.size_ + 1
      · rw [if_pos h1, if_pos h1]
      · rw [if_neg h1, if_neg h1, if_neg (fun e => hk e.symm)]
  rw [hall2 (.obj x), hall (.obj x)]
  simp only [Ref.read, Ref.leave, hcells]

/-- The list obtained from a buffer by shifting `(i, n)` one slot to the left, cut at
`n - 1`, is the old prefix of length `n` without its element `i`. -/
theorem take_erase_shift (l r : List α) (i n : Nat) (hi : i < n) (hn : n ≤ l.length)
    (hr : ∀ k, k < n - 1 → r[k]? = if i ≤ k then l[k + 1]? else l[k]?) :
    r.take (n - 1) = (l.take n).take i ++ (l.take n).drop (i + 1) := by
  apply List.ext_getElem?
  intro k
  have hm1 : min i n = i := by omega
  have hm2 : min n l.length = n := by omega
  simp only [List.getElem?_take, List.getElem?_append, List.length_take, hm1, hm2,
    List.getElem?_drop]
  by_cases h3 : k < n - 1
  · rw [if_pos h3, hr k h3]
    by_cases h1 : k < i
    · rw [if_neg (by omega), if_pos h1, if_pos h1, if_pos (by omega)]
    · rw [if_pos (by omega), if_neg h1, if_pos (by omega)]
      have e2 : i + 1 + (k - i) = k + 1 := by omega
      rw [e2]
  · rw [if_neg h3, if_neg (by omega), if_neg (by omega)]

/-- What `Erase` does on a vector that satisfies the class invariant. -/
theorem Erase_spec (mv : α → α) (v : SimpleVector α) (i : Nat) (h : v.WF)
    (hi : i < v.size_) :
    ∃ v1, Erase mv v i = .ok (v1, i) ∧ v1.WF ∧ v1.size_ = v.size_ - 1 ∧
      v1.contents = v.contents.take i ++ v.contents.drop (i + 1) ∧
      v1.capacity_ = v.capacity_ := by
  obtain ⟨hl, hle⟩ := h
  obtain ⟨r, hr, hrl, hrk⟩ := moveWithinLoop_spec mv (v.size_ - (i + 1)) i
    v.vector_ (by omega)
  refine ⟨{ v with vector_ := r, size_ := v.size_ - 1 }, ?_, ?_, rfl, ?_, rfl⟩
  · simp only [Erase, std_move_within, hr]
    rw [if_neg (by omega)]
  · exact ⟨by show r.cells.length = v.capacity_; omega,
      by show v.size_ - 1 ≤ v.capacity_; omega⟩
  · show r.cells.take (v.size_ - 1) = _
    refine take_erase_shift v.vector_.cells r.cells i v.size_ hi (by omega) ?_
    intro k hk
    rw [hrk k]
    by_cases h1 : i ≤ k
    · rw [if_pos (by omega), if_pos h1]
    · rw [if_neg (by omega), if_neg (by omega), if_neg h1]

theorem getElem?_contents (v : SimpleVector α) (i : Nat) (hi : i < v.size_) :
    v.contents[i]? = v.vector_.cells[i]? := by
  simp only [contents, List.getElem?_take]
  rw [if_pos hi]

theorem index_of_contents (v : SimpleVector α) (i : Nat) (x : α) (hi : i < v.size_)
    (hc : v.contents[i]? = some x) : v.index i = .ok x := by
  rw [getElem?_contents v i hi] at hc
  simp only [index, ArrayPtr.get, hc]

theorem index_congr (v w : SimpleVector α) (i j : Nat) (hi : i < v.size_) (hj : j < w.size_)
    (hc : v.contents[i]? = w.contents[j]?) : v.index i = w.index j := by
  rw [getElem?_contents v i hi, getElem?_contents w j hj] at hc
  simp only [index, ArrayPtr.get, hc]

theorem mk0_WF : (mk0 : SimpleVector α).WF := ⟨rfl, Nat.le_refl 0⟩

/-- What `Reserve` does on a vector that satisfies the class invariant. -/
theorem Reserve_spec [Inhabited α] (v : SimpleVector α) (k : Nat) (h : v.WF) :
    ∃ v1, Reserve v k = .ok v1 ∧ v1.WF ∧ v1.size_ = v.size_ ∧ v1.contents = v.contents ∧
      v1.capacity_ = max v.capacity_ k ∧ (k ≤ v.capacity_ → v1 = v) := by
  obtain ⟨hl, hle⟩ := h
  by_cases hk : v.capacity_ < k
  · refine ⟨⟨k, v.size_, ⟨v.contents ++ List.replicate (k - v.size_) default⟩⟩,
      ?_, ?_, rfl, ?_, ?_, ?_⟩
    · simp only [Reserve]
      rw [if_pos hk, ResizeCapacity_spec v k (by omega) (by omega)]
    · refine ⟨?_, ?_⟩
      · show (v.contents ++ List.replicate (k - v.size_) default).length = k
        rw [List.length_append, List.length_replicate, contents_length v ⟨hl, hle⟩]
        omega
      · show v.size_ ≤ k
        omega
    · exact take_append_replicate v.vector_.cells v.size_ _ _ (by omega)
    · show k = max v.capacity_ k
      omega
    · intro h; omega
  · refine ⟨v, ?_, ⟨hl, hle⟩, rfl, rfl, by omega, fun _ => rfl⟩
    simp only [Reserve]
    rw [if_neg hk]

/-- What `Resize` does on a vector that satisfies the class invariant. -/
theorem Resize_spec [Inhabited α] (v : SimpleVector α) (n : Nat) (h : v.WF) :
    ∃ v1, Resize v n = .ok v1 ∧ v1.WF ∧ v1.size_ = n ∧
      v1.capacity_ = (if n < v.capacity_ then v.capacity_ else max n (v.size_ * 2)) := by
  obtain ⟨hl, hle⟩ := h
  by_cases hn : n < v.capacity_
  · refine ⟨{ v with size_ := n }, ?_, ⟨hl, Nat.le_of_lt hn⟩, rfl, ?_⟩
    · simp only [Resize]
      rw [if_pos hn]
    · rw [if_pos hn]
  · refine ⟨⟨max n (v.size_ * 2), n,
      ⟨v.contents ++ List.replicate (max n (v.size_ * 2) - v.size_) default⟩⟩, ?_, ?_, rfl, ?_⟩
    · simp only [Resize]
      rw [if_neg hn, ResizeCapacity_spec v _ (by omega) (by omega)]
    · refine ⟨?_, ?_⟩
      · show (v.contents ++ List.replicate (max n (v.size_ * 2) - v.size_) default).length =
          max n (v.size_ * 2)
        rw [List.length_append, List.length_replicate, contents_length v ⟨hl, hle⟩]
        omega
      · show n ≤ max n (v.size_ * 2)
        omega
    · rw [if_neg hn]

/-- Pushing after a push: the sequence `xs ++ [x]` is the sequence `xs` followed by one
more `PushBack`. -/
theorem pushAll_append [Inhabited α] (xs : List α) (x : α) : ∀ v : SimpleVector α,
    pushAll v (xs ++ [x]) =
      (match pushAll v xs with
       | .error e => .error e
       | .ok v1 => PushBack v1 (.obj x)) := by
  induction xs with
  | nil =>
    intro v
    simp only [List.nil_append, pushAll]
    cases PushBack v (.obj x) <;> rfl
  | cons y ys ih =>
    intro v
    simp only [List.cons_append, pushAll]
    cases PushBack v (.obj y) with
    | error e => rfl
    | ok v1 => exact ih v1

/-- What a sequence of `PushBack` calls does on a vector that satisfies the class
invariant. -/
theorem pushAll_spec [Inhabited α] (xs : List α) : ∀ v : SimpleVector α, v.WF →
    ∃ v1, pushAll v xs = .ok v1 ∧ v1.WF ∧ v1.size_ = v.size_ + xs.length ∧
      v1.contents = v.contents ++ xs ∧ v.capacity_ ≤ v1.capacity_ ∧
      (v.size_ + xs.length ≤ v.capacity_ → v1.capacity_ = v.capacity_) := by
  induction xs with
  | nil =>
    intro v h
    exact ⟨v, rfl, h, rfl, (List.append_nil _).symm, Nat.le_refl _, fun _ => rfl⟩
  | cons y ys ih =>
    intro v h
    obtain ⟨a, ha, haw, has, hac, hacap⟩ := PushBack_spec v y h
    obtain ⟨b, hb, hbw, hbs, hbc, hble, hbcap⟩ := ih a haw
    have hcap : v.capacity_ ≤ a.capacity_ := by
      rw [hacap]; split
      · exact Nat.le_refl _
      · split <;> omega
    refine ⟨b, ?_, hbw, ?_, ?_, Nat.le_trans hcap hble, ?_⟩
    · simp only [pushAll, ha]
      exact hb
    · rw [hbs, has, List.length_cons]; omega
    · rw [hbc, hac, List.append_assoc, List.singleton_append]
    · intro hfit
      rw [List.length_cons] at hfit
      have e1 : a.capacity_ = v.capacity_ := by
        rw [hacap, if_pos (by omega)]
      rw [hbcap (by omega), e1]

theorem PushBack_CapInv [Inhabited α] (v v1 : SimpleVector α) (x : α) (h : v.WF)
    (hinv : v.CapInv) (hp : PushBack v (.obj x) = .ok v1) : v1.CapInv := by
  obtain ⟨a, ha, _, has, _, hacap⟩ := PushBack_spec v x h
  rw [hp] at ha
  cases ha
  right
  rcases hinv with ⟨hs, hc⟩ | ⟨k, hk, hle, hlt⟩
  · refine ⟨0, ?_, ?_, ?_⟩
    · rw [hacap, if_neg (by omega), if_pos hc]; rfl
    · rw [hacap, if_neg (by omega), if_pos hc, has]; omega
    · rw [hacap, if_neg (by omega), if_pos hc, has]; omega
  · by_cases hfit : v.size_ < v.capacity_
    · refine ⟨k, ?_, ?_, ?_⟩
      · rw [hacap, if_pos hfit, hk]
      · rw [hacap, if_pos hfit, has]; omega
      · rw [hacap, if_pos hfit, has]; omega
    · have hpos : 0 < 2 ^ k := Nat.pow_pos (by decide)
      refine ⟨k + 1, ?_, ?_, ?_⟩
      · rw [hacap, if_neg hfit, if_neg (by omega), hk, Nat.pow_succ]; omega
      · rw [hacap, if_neg hfit, if_neg (by omega), has]; omega
      · rw [hacap, if_neg hfit, if_neg (by omega), has]; omega

theorem pushAll_CapInv [Inhabited α] (xs : List α) : ∀ v v1 : SimpleVector α, v.WF →
    v.CapInv → pushAll v xs = .ok v1 → v1.CapInv := by
  induction xs with
  | nil =>
    intro v v1 _ hinv hp
    simp only [pushAll] at hp
    cases hp
    exact hinv
  | cons y ys ih =>
    intro v v1 h hinv hp
    obtain ⟨a, ha, haw, _⟩ := PushBack_spec v y h
    simp only [pushAll, ha] at hp
    exact ih a v1 haw (PushBack_CapInv v a y h hinv ha) hp

theorem opLt_spec [LT α] [DecidableRel (fun x y : α => x < y)] (a b : SimpleVector α)
    (ha : a.WF) (hb : b.WF) : opLt a b = .ok (lexList a.contents b.contents) := by
  simp only [opLt, std_lexicographical_compare, Nat.sub_zero]
  rw [lexLoop_eq_lexList a.vector_ b.vector_ a.size_ 0 b.size_ 0
    (by have := ha.1; have := ha.2; omega) (by have := hb.1; have := hb.2; omega)]
  simp only [List.drop_zero, contents]

/-- What the copy constructor builds from a vector that satisfies the class invariant. -/
theorem copyCtor_spec [Inhabited α] (a : SimpleVector α) (h : a.WF) :
    copyCtor a = .ok ⟨a.capacity_, a.size_,
      ⟨a.contents ++ List.replicate (a.capacity_ - a.size_) default⟩⟩ := by
  obtain ⟨hl, hle⟩ := h
  obtain ⟨q, hq, hql, hqk⟩ :=
    moveLoop_spec a.vector_ a.size_ 0 0 (ArrayPtr.alloc a.capacity_) (by omega)
      (by simp only [ArrayPtr.alloc, List.length_replicate]; omega)
  have hcells : q.cells = a.contents ++ List.replicate (a.capacity_ - a.size_) default := by
    apply List.ext_getElem?
    intro k
    rw [hqk k]
    have hlen : (a.contents).length = a.size_ := contents_length a ⟨hl, hle⟩
    by_cases h1 : k < a.size_
    · rw [if_pos (by omega), List.getElem?_append_left (by omega), getElem?_contents a k h1]
      simp
    · rw [if_neg (by omega), List.getElem?_append_right (by omega), hlen]
      simp only [ArrayPtr.alloc, List.getElem?_replicate]
      by_cases h2 : k < a.capacity_
      · rw [if_pos h2, if_pos (by omega)]
      · rw [if_neg h2, if_neg (by omega)]
  have hq2 : q = ⟨a.contents ++ List.replicate (a.capacity_ - a.size_) default⟩ := by
    cases q; simp only [ArrayPtr.mk.injEq]; exact hcells
  simp only [copyCtor, std_move, Nat.sub_zero, hq, hq2]
  rfl

theorem generate_all (x : α) (n : Nat) (buf : ArrayPtr α) (h : buf.cells.length = n) :
    std_generate buf 0 n x = .ok ⟨List.replicate n x⟩ := by
  obtain ⟨r, hr, hrl, hrk⟩ := generateLoop_spec x n 0 buf (by omega)
  have hcells : r.cells = List.replicate n x := by
    apply List.ext_getElem?
    intro k
    rw [hrk k, List.getElem?_replicate]
    by_cases h1 : k < n
    · rw [if_pos (by omega), if_pos h1]
    · rw [if_neg (by omega), if_neg h1]
      exact List.getElem?_eq_none (by omega)
  have hr2 : r = ⟨List.replicate n x⟩ := by
    cases r; simp only [ArrayPtr.mk.injEq]; exact hcells
  simp only [std_generate, Nat.sub_zero, hr, hr2]

theorem ofCount_spec [Inhabited α] (n : Nat) :
    (ofCount n : Except Fault (SimpleVector α)) = .ok ⟨n, n, ⟨List.replicate n default⟩⟩ := by
  simp only [ofCount, generate_all default n (ArrayPtr.alloc n) (by simp [ArrayPtr.alloc])]
  rfl

theorem ofCountValue_spec [Inhabited α] (n : Nat) (x : α) :
    ofCountValue n x = .ok ⟨n, n, ⟨List.replicate n x⟩⟩ := by
  simp only [ofCountValue, generate_all x n (ArrayPtr.alloc n) (by simp [ArrayPtr.alloc])]
  rfl

theorem ofInitList_spec [Inhabited α] (init : List α) :
    ofInitList init = .ok ⟨init.length, init.length, ⟨init⟩⟩ := by
  obtain ⟨q, hq, hql, hqk⟩ :=
    moveLoop_spec ⟨init⟩ init.length 0 0 (ArrayPtr.alloc init.length) (by simp)
      (by simp [ArrayPtr.alloc])
  have hcells : q.cells = init := by
    apply List.ext_getElem?
    intro k
    rw [hqk k]
    by_cases h1 : k < init.length
    · rw [if_pos (by omega)]; simp
    · rw [if_neg (by omega)]
      simp only [ArrayPtr.alloc, List.getElem?_replicate]
      rw [if_neg h1]
      exact (List.getElem?_eq_none (by omega)).symm
  have hq2 : q = ⟨init⟩ := by
    cases q; simp only [ArrayPtr.mk.injEq]; exact hcells
  simp only [ofInitList, std_move, Nat.sub_zero, hq, hq2]
  rfl

/-- `ResizeCapacity` keeps the size. -/
theorem ResizeCapacity_size [Inhabited α] (v v1 : SimpleVector α) (n : Nat)
    (h : ResizeCapacity v n = .ok v1) : v1.size_ = v.size_ := by
  simp only [ResizeCapacity] at h
  split at h
  · cases h
  · split at h
    · cases h
    · cases h; rfl

/-- The copy-value `Insert` at `end()` is `PushBack`, on every state and for every
argument. -/
theorem Insert_end_eq_PushBack [Inhabited α] (v : SimpleVector α) (ref : Ref α) :
    Insert v v.size_ ref = (PushBack v ref).map fun v1 => (v1, v.size_) := by
  unfold Insert PushBack
  rw [if_neg (show ¬ ¬ v.size_ ≤ v.size_ by omega)]
  by_cases hc : v.size_ = v.capacity_
  · rw [if_pos hc]
    cases hR : ResizeCapacity v (if v.size_ = 0 then 1 else v.size_ * 2) with
    | error e => rfl
    | ok v1 =>
      have hs := ResizeCapacity_size v v1 _ hR
      simp only [std_copy_backward, hs, Nat.sub_self, copyBackwardLoop]
      cases ref.read (decide (v.size_ = v.capacity_)) v1.vector_ with
      | error e => rfl
      | ok x =>
        dsimp only
        cases v1.vector_.set v.size_ x <;> rfl
  · rw [if_neg hc]
    simp only [std_copy_backward, Nat.sub_self, copyBackwardLoop]
    cases ref.read (decide (v.size_ = v.capacity_)) v.vector_ with
    | error e => rfl
    | ok x =>
      dsimp only
      cases v.vector_.set v.size_ x <;> rfl

theorem Clear_WF (v : SimpleVector α) (h : v.WF) : (Clear v).WF :=
  ⟨h.1, Nat.zero_le _⟩

theorem PopBack_spec (v : SimpleVector α) (h : v.size_ ≠ 0) :
    PopBack v = .ok { v with size_ := v.size_ - 1 } := by
  simp only [PopBack, IsEmpty]
  rw [if_neg (by simpa using h)]

/-- The vector built by the copy constructor satisfies the class invariant and has the
logical contents of its source. -/
theorem copy_result_WF [Inhabited α] (a : SimpleVector α) (h : a.WF) :
    (⟨a.capacity_, a.size_,
      ⟨a.contents ++ List.replicate (a.capacity_ - a.size_) default⟩⟩ : SimpleVector α).WF ∧
    (⟨a.capacity_, a.size_,
      ⟨a.contents ++ List.replicate (a.capacity_ - a.size_) default⟩⟩ :
        SimpleVector α).contents = a.contents ∧
    ∀ i, i < a.size_ →
      (⟨a.capacity_, a.size_,
        ⟨a.contents ++ List.replicate (a.capacity_ - a.size_) default⟩⟩ :
          SimpleVector α).index i = a.index i := by
  have hlen := contents_length a h
  obtain ⟨hl, hle⟩ := h
  have hc : (⟨a.capacity_, a.size_,
      ⟨a.contents ++ List.replicate (a.capacity_ - a.size_) default⟩⟩ :
        SimpleVector α).contents = a.contents :=
    take_append_replicate a.vector_.cells a.size_ _ _ (by omega)
  refine ⟨⟨?_, hle⟩, hc, ?_⟩
  · show (a.contents ++ List.replicate (a.capacity_ - a.size_) default).length = a.capacity_
    rw [List.length_append, List.length_replicate, hlen]
    omega
  · intro i hi
    exact index_congr (⟨a.capacity_, a.size_,
      ⟨a.contents ++ List.replicate (a.capacity_ - a.size_) default⟩⟩ : SimpleVector α)
      a i i hi hi (by rw [hc])

end OperationLemmas

end SimpleVector

namespace Store

section StoreLemmas
variable {α : Type}

theorem get_put_same (s : Store α) (o : Obj) (v : SimpleVector α) : (s.put o v).get o = v := by
  cases o <;> rfl

theorem get_put_other (s : Store α) (o p : Obj) (v : SimpleVector α) (h : p ≠ o) :
    (s.put o v).get p = s.get p := by
  cases o <;> cases p <;> first | rfl | exact absurd rfl h

/-- What the two assignment operators do when the right-hand side satisfies the class
invariant and is another object. -/
theorem copyAssign_spec [Inhabited α] (s : Store α) (this rhs : Obj) (hne : this ≠ rhs)
    (h : (s.get rhs).WF) :
    copyAssign s this rhs = .ok (s.put this ⟨(s.get rhs).capacity_, (s.get rhs).size_,
      ⟨(s.get rhs).contents ++
        List.replicate ((s.get rhs).capacity_ - (s.get rhs).size_) default⟩⟩) := by
  unfold copyAssign
  rw [if_pos hne, SimpleVector.copyCtor_spec _ h]
  rfl

theorem moveAssign_eq_copyAssign [Inhabited α] (s : Store α) (this rhs : Obj) :
    moveAssign s this rhs = copyAssign s this rhs := rfl

end StoreLemmas

end Store

namespace Heap

section HeapLemmas
variable {α : Type}

theorem read_lt (h : Heap α) (p : Nat) (buf : ArrayPtr α) (hr : h.read p = .ok buf) :
    p < h.blocks.length := by
  by_contra hn
  have hnone : h.blocks[p]? = none := List.getElem?_eq_none (by omega)
  simp only [read, hnone] at hr
  cases hr

theorem read_alloc_old (h : Heap α) (buf : ArrayPtr α) (p : Nat) (hp : p < h.blocks.length) :
    (h.alloc buf).1.read p = h.read p := by
  simp only [alloc, read]
  rw [List.getElem?_append_left hp]

theorem read_alloc_new (h : Heap α) (buf : ArrayPtr α) :
    (h.alloc buf).1.read (h.alloc buf).2 = .ok buf := by
  simp only [alloc, read]
  rw [List.getElem?_append_right (Nat.le_refl _)]
  simp

theorem read_write_other (h : Heap α) (p q : Nat) (buf : ArrayPtr α) (hne : p ≠ q) :
    (h.write q buf).read p = h.read p := by
  simp only [write, read]
  rw [List.getElem?_set_ne (fun e => hne e.symm)]

theorem read_write_same (h : Heap α) (q : Nat) (buf : ArrayPtr α) (hq : q < h.blocks.length) :
    (h.write q buf).read q = .ok buf := by
  simp only [write, read]
  rw [List.getElem?_set_self hq]

theorem read_release_other (h : Heap α) (p q : Nat) (hne : p ≠ q) :
    (h.release q).read p = h.read p := by
  simp only [release, read]
  rw [List.getElem?_set_ne (fun e => hne e.symm)]

theorem value_ok (h : Heap α) (o : VectorObj) (v : SimpleVector α) (hv : h.value o = .ok v) :
    h.read o.raw_ptr_ = .ok v.vector_ ∧ v.capacity_ = o.capacity_ ∧ v.size_ = o.size_ := by
  simp only [value] at hv
  cases hr : h.read o.raw_ptr_ with
  | error e => rw [hr] at hv; cases hv
  | ok buf =>
    rw [hr] at hv
    cases hv
    exact ⟨rfl, rfl, rfl⟩

theorem value_of_read (h : Heap α) (o : VectorObj) (v : SimpleVector α)
    (hr : h.read o.raw_ptr_ = .ok v.vector_) (hc : v.capacity_ = o.capacity_)
    (hs : v.size_ = o.size_) : h.value o = .ok v := by
  simp only [value, hr, ← hc, ← hs]

/-- A call on the object `o` leaves every other block of the free store as it was, and
the object does not come to hold the address of another block. -/
theorem call_frame [Inhabited α] (mv : α → α) (h h2 : Heap α) (o o2 : VectorObj) (m : Mut α)
    (p : Nat) (hc : h.call mv o m = .ok (h2, o2)) (hne : p ≠ o.raw_ptr_)
    (hp : p < h.blocks.length) :
    h2.read p = h.read p ∧ p ≠ o2.raw_ptr_ ∧ p < h2.blocks.length := by
  simp only [call] at hc
  cases hv : h.value o with
  | error e => rw [hv] at hc; cases hc
  | ok v =>
    rw [hv] at hc
    dsimp only at hc
    cases ha : m.apply mv v with
    | error e => rw [ha] at hc; cases hc
    | ok v1 =>
      rw [ha] at hc
      dsimp only at hc
      by_cases hre : m.reallocates v = true
      · rw [if_pos hre] at hc
        cases hc
        refine ⟨?_, ?_, ?_⟩
        · rw [read_release_other _ _ _ hne, read_alloc_old _ _ _ hp]
        · simp only [alloc]; omega
        · simp only [release, alloc, List.length_set, List.length_append, List.length_singleton]
          omega
      · rw [if_neg hre] at hc
        cases hc
        refine ⟨read_write_other _ _ _ _ hne, hne, ?_⟩
        simp only [write, List.length_set]
        exact hp

theorem calls_frame [Inhabited α] (mv : α → α) (ms : List (Mut α)) :
    ∀ (h h2 : Heap α) (o o2 : VectorObj) (p : Nat), h.calls mv o ms = .ok (h2, o2) →
      p ≠ o.raw_ptr_ → p < h.blocks.length →
      h2.read p = h.read p ∧ p ≠ o2.raw_ptr_ ∧ p < h2.blocks.length := by
  induction ms with
  | nil =>
    intro h h2 o o2 p hc hne hp
    simp only [calls] at hc
    cases hc
    exact ⟨rfl, hne, hp⟩
  | cons m ms ih =>
    intro h h2 o o2 p hc hne hp
    simp only [calls] at hc
    cases h1 : h.call mv o m with
    | error e => rw [h1] at hc; cases hc
    | ok r =>
      rw [h1] at hc
      dsimp only at hc
      obtain ⟨hr, hne1, hp1⟩ := call_frame mv h r.1 o r.2 m p h1 hne hp
      obtain ⟨hr2, hne2, hp2⟩ := ih r.1 h2 r.2 o2 p hc hne1 hp1
      exact ⟨hr2.trans hr, hne2, hp2⟩

/-- A call on the free store ends with the value that the member function gives. -/
theorem call_value [Inhabited α] (mv : α → α) (h : Heap α) (o : VectorObj) (m : Mut α)
    (v v1 : SimpleVector α) (hv : h.value o = .ok v) (ha : m.apply mv v = .ok v1) :
    ∃ h2 o2, h.call mv o m = .ok (h2, o2) ∧ h2.value o2 = .ok v1 := by
  obtain ⟨hr, _, _⟩ := value_ok h o v hv
  have hlt := read_lt h _ _ hr
  simp only [call, hv, ha]
  by_cases hre : m.reallocates v = true
  · rw [if_pos hre]
    refine ⟨_, _, rfl, ?_⟩
    apply value_of_read _ _ _ _ rfl rfl
    rw [read_release_other _ _ _ (by simp only [alloc]; omega)]
    exact read_alloc_new h v1.vector_
  · rw [if_neg hre]
    refine ⟨_, _, rfl, ?_⟩
    apply value_of_read _ _ _ _ rfl rfl
    exact read_write_same h _ _ hlt

/-- The copy constructor on the free store: it returns, gives the copy a block of its own
holding the value that `copyCtor` gives, and leaves the block of the source as it was. -/
theorem copyCtorH_spec [Inhabited α] (h : Heap α) (a : VectorObj) (va : SimpleVector α)
    (hv : h.value a = .ok va) (hwf : va.WF) :
    ∃ h1 b vb, copyCtorH h a = .ok (h1, b) ∧ h1.value b = .ok vb ∧
      SimpleVector.copyCtor va = .ok vb ∧
      b.raw_ptr_ = h.blocks.length ∧ a.raw_ptr_ < h.blocks.length ∧
      h1.blocks.length = h.blocks.length + 1 ∧
      h1.read a.raw_ptr_ = h.read a.raw_ptr_ := by
  obtain ⟨hr, hcap, hsz⟩ := value_ok h a va hv
  have hlt := read_lt h _ _ hr
  have hcopy := SimpleVector.copyCtor_spec va hwf
  have hcopy2 := hcopy
  simp only [SimpleVector.copyCtor] at hcopy2
  cases hm : std_move va.vector_ 0 va.size_ (ArrayPtr.alloc va.capacity_) 0 with
  | error e => rw [hm] at hcopy2; cases hcopy2
  | ok dst1 =>
    rw [hm] at hcopy2
    have hd : (⟨va.capacity_, va.size_, dst1⟩ : SimpleVector α) =
        ⟨va.capacity_, va.size_,
          ⟨va.contents ++ List.replicate (va.capacity_ - va.size_) default⟩⟩ := by
      simpa [Except.map] using hcopy2
    simp only [copyCtorH]
    rw [read_alloc_old _ _ _ hlt, hr, read_alloc_new]
    dsimp only
    rw [← hcap, ← hsz, hm]
    dsimp only
    refine ⟨_, _, _, rfl, ?_, hcopy, rfl, hlt, ?_, ?_⟩
    · apply value_of_read
      · rw [read_write_same _ _ _ (by simp [alloc])]
        exact congrArg (fun w => Except.ok (SimpleVector.vector_ w)) hd
      · rfl
      · rfl
    · simp [write, alloc]
    · rw [read_write_other _ _ _ _ (by simp only [alloc]; omega), read_alloc_old _ _ _ hlt]
      exact hr

end HeapLemmas

end Heap

namespace SimpleVector

/-! ## The claims -/

section Claims
variable {α : Type}

/-- Claim C1 (evaluation of the code): `operator==` compares only the first `lhs.size_`
slots and never looks at the size of `rhs`, so for `{1,2}` and `{1,2,3}` it returns true
(and `operator!=` returns false) although the sizes differ; with the operands exchanged the
loop reads slot 2 of a buffer of two slots. -/
theorem C1_opEq_shorter_lhs_is_equal :
    ofInitList [1, 2] = .ok (⟨2, 2, ⟨[1, 2]⟩⟩ : SimpleVector Nat) ∧
    ofInitList [1, 2, 3] = .ok (⟨3, 3, ⟨[1, 2, 3]⟩⟩ : SimpleVector Nat) ∧
    GetSize (⟨2, 2, ⟨[1, 2]⟩⟩ : SimpleVector Nat) ≠ GetSize (⟨3, 3, ⟨[1, 2, 3]⟩⟩ : SimpleVector Nat) ∧
    opEq (⟨2, 2, ⟨[1, 2]⟩⟩ : SimpleVector Nat) ⟨3, 3, ⟨[1, 2, 3]⟩⟩ = .ok true ∧
    opNe (⟨2, 2, ⟨[1, 2]⟩⟩ : SimpleVector Nat) ⟨3, 3, ⟨[1, 2, 3]⟩⟩ = .ok false ∧
    opEq (⟨3, 3, ⟨[1, 2, 3]⟩⟩ : SimpleVector Nat) ⟨2, 2, ⟨[1, 2]⟩⟩ = .error .outOfBuffer ∧
    opEq (⟨3, 3, ⟨[1, 2, 3]⟩⟩ : SimpleVector Nat) ⟨3, 3, ⟨[1, 2, 3]⟩⟩ = .ok true :=
  ⟨rfl, rfl, by decide, rfl, rfl, rfl, rfl⟩

/-- Claim C2: `At(i)` leaves the vector as it is; for `i < Size()` it gives the outcome of
`operator[](i)`, which on a vector satisfying the class invariant is an element (the one at
position `i` of the logical contents); for `i >= Size()` it fails with the out-of-range
error, whatever the capacity. -/
theorem C2_At_checked_access (v : SimpleVector α) (i : Nat) :
    (At v i).1 = v ∧
    (i < v.GetSize → (At v i).2 = v.index i) ∧
    (v.WF → i < v.GetSize →
      ∃ x, (At v i).2 = .ok x ∧ v.index i = .ok x ∧ v.contents[i]? = some x) ∧
    (v.GetSize ≤ i → (At v i).2 = .error .outOfRange) := by
  refine ⟨?_, ?_, ?_, ?_⟩
  · simp only [At]; split <;> rfl
  · intro hi
    simp only [At]
    rw [if_neg (by simp only [GetSize] at hi; omega)]
    rfl
  · intro hw hi
    simp only [GetSize] at hi
    have hlt : i < v.contents.length := by rw [contents_length v hw]; exact hi
    refine ⟨v.contents.get ⟨i, hlt⟩, ?_, ?_, ?_⟩
    · simp only [At]
      rw [if_neg (by omega)]
      exact index_of_contents v i _ hi (List.getElem?_eq_getElem hlt)
    · exact index_of_contents v i _ hi (List.getElem?_eq_getElem hlt)
    · exact List.getElem?_eq_getElem hlt
  · intro hi
    simp only [At]
    rw [if_pos (by simp only [GetSize] at hi; omega)]

/-- Claim C2, at the vector of size 2 and capacity 4 with buffer `[5, 6, 0, 0]`: index 1
is read, index 3 (below the capacity) is refused. -/
theorem C2_At_checked_access_witness :
    ((1 < GetSize (⟨4, 2, ⟨[5, 6, 0, 0]⟩⟩ : SimpleVector Nat)) ∧
      (At (⟨4, 2, ⟨[5, 6, 0, 0]⟩⟩ : SimpleVector Nat) 1).2 =
        index (⟨4, 2, ⟨[5, 6, 0, 0]⟩⟩ : SimpleVector Nat) 1) ∧
    ((GetSize (⟨4, 2, ⟨[5, 6, 0, 0]⟩⟩ : SimpleVector Nat) ≤ 3 ∧
      3 < GetCapacity (⟨4, 2, ⟨[5, 6, 0, 0]⟩⟩ : SimpleVector Nat)) ∧
      (At (⟨4, 2, ⟨[5, 6, 0, 0]⟩⟩ : SimpleVector Nat) 3).2 = .error .outOfRange) :=
  ⟨⟨by decide, (C2_At_checked_access _ 1).2.1 (by decide)⟩,
   ⟨by decide, (C2_At_checked_access _ 3).2.2.2 (by decide)⟩⟩

/-- Claim C4: pushing `x_1 .. x_n` onto the default-constructed vector returns a vector of
size `n`, capacity at least `n` and logical contents `x_1 .. x_n`; the final capacity is 0
for `n = 0` and otherwise the smallest power of two that is at least `n`; and each single
push keeps the capacity, takes it from 0 to 1, or doubles it. -/
theorem C4_pushAll_from_empty [Inhabited α] (xs : List α) :
    ∃ v, pushAll (mk0 : SimpleVector α) xs = .ok v ∧
      v.GetSize = xs.length ∧ xs.length ≤ v.GetCapacity ∧ v.contents = xs ∧
      (xs.length = 0 → v.GetCapacity = 0) ∧
      (xs.length ≠ 0 → ∃ k, v.GetCapacity = 2 ^ k ∧ ∀ j, xs.length ≤ 2 ^ j → 2 ^ k ≤ 2 ^ j) ∧
      (∀ m, m < xs.length → ∃ a b x,
        pushAll (mk0 : SimpleVector α) (xs.take m) = .ok a ∧ xs[m]? = some x ∧
        PushBack a (.obj x) = .ok b ∧
        pushAll (mk0 : SimpleVector α) (xs.take (m + 1)) = .ok b ∧
        (b.GetCapacity = a.GetCapacity ∨ (a.GetCapacity = 0 ∧ b.GetCapacity = 1) ∨
          (a.GetCapacity ≠ 0 ∧ b.GetCapacity = 2 * a.GetCapacity))) := by
  obtain ⟨v, hp, hw, hs, hc, _, _⟩ := pushAll_spec xs (mk0 : SimpleVector α) mk0_WF
  have hinv := pushAll_CapInv xs mk0 v mk0_WF (Or.inl ⟨rfl, rfl⟩) hp
  have hs0 : v.size_ = xs.length := by rw [hs]; show 0 + xs.length = xs.length; omega
  have hle : v.size_ ≤ v.capacity_ := hw.2
  simp only [GetSize, GetCapacity]
  refine ⟨v, hp, hs0, by omega, ?_, ?_, ?_, ?_⟩
  · rw [hc]; exact List.nil_append xs
  · intro h0
    rcases hinv with ⟨_, hc0⟩ | ⟨k, _, _, hlt⟩
    · exact hc0
    · omega
  · intro h0
    rcases hinv with ⟨hz, _⟩ | ⟨k, hk, _, hlt⟩
    · omega
    · refine ⟨k, hk, fun j hj => ?_⟩
      by_cases hkj : k ≤ j
      · exact Nat.pow_le_pow_right (by decide) hkj
      · have h2 : 2 ^ (j + 1) ≤ 2 ^ k := Nat.pow_le_pow_right (by decide) (by omega)
        rw [Nat.pow_succ] at h2
        omega
  · intro m hm
    obtain ⟨a, ha, haw, _⟩ := pushAll_spec (xs.take m) (mk0 : SimpleVector α) mk0_WF
    obtain ⟨b, hb, _, _, _, hbcap⟩ := PushBack_spec a (xs.get ⟨m, hm⟩) haw
    have ht : xs.take (m + 1) = xs.take m ++ [xs.get ⟨m, hm⟩] := by
      rw [List.take_succ, List.getElem?_eq_getElem hm]
      rfl
    refine ⟨a, b, xs.get ⟨m, hm⟩, ha, List.getElem?_eq_getElem hm, hb, ?_, ?_⟩
    · rw [ht, pushAll_append, ha]
      exact hb
    · rw [hbcap]
      by_cases h1 : a.size_ < a.capacity_
      · left; rw [if_pos h1]
      · by_cases h2 : a.capacity_ = 0
        · right; left; rw [if_neg h1, if_pos h2]; exact ⟨h2, rfl⟩
        · right; right; rw [if_neg h1, if_neg h2]; exact ⟨h2, rfl⟩

/-- Claim C5 (as the code has it): on a vector satisfying the class invariant `Resize(n)`
returns a vector of size `n`; the capacity is unchanged when `n` is below the old capacity,
and is `max(n, 2 * old size)`, hence at least `n`, when `n` is the old capacity or more. -/
theorem C5_Resize_size_and_capacity [Inhabited α] (v : SimpleVector α) (n : Nat)
    (h : v.WF) :
    ∃ v1, Resize v n = .ok v1 ∧ v1.GetSize = n ∧
      (n < v.GetCapacity → v1.GetCapacity = v.GetCapacity) ∧
      (v.GetCapacity ≤ n →
        v1.GetCapacity = max n (2 * v.GetSize) ∧ n ≤ v1.GetCapacity) := by
  obtain ⟨v1, hr, _, hs, hcap⟩ := Resize_spec v n h
  simp only [GetSize, GetCapacity]
  refine ⟨v1, hr, hs, ?_, ?_⟩
  · intro hlt
    rw [hcap, if_pos hlt]
  · intro hge
    rw [hcap, if_neg (by omega)]
    constructor <;> omega

/-- Claim C5 as amended, at `{7}` (size 1, capacity 1) and `n = 1`, and at the vector of
size 1 and capacity 3 with `n = 2`. -/
theorem C5_Resize_size_and_capacity_witness :
    ((⟨1, 1, ⟨[7]⟩⟩ : SimpleVector Nat).WF ∧
      ∃ v1, Resize (⟨1, 1, ⟨[7]⟩⟩ : SimpleVector Nat) 1 = .ok v1 ∧ v1.GetSize = 1 ∧
        (1 < 1 → v1.GetCapacity = 1) ∧
        (1 ≤ 1 → v1.GetCapacity = max 1 (2 * 1) ∧ 1 ≤ v1.GetCapacity)) ∧
    ((⟨3, 1, ⟨[7, 0, 0]⟩⟩ : SimpleVector Nat).WF ∧
      ∃ v1, Resize (⟨3, 1, ⟨[7, 0, 0]⟩⟩ : SimpleVector Nat) 2 = .ok v1 ∧ v1.GetSize = 2 ∧
        (2 < 3 → v1.GetCapacity = 3) ∧
        (3 ≤ 2 → v1.GetCapacity = max 2 (2 * 1) ∧ 2 ≤ v1.GetCapacity)) :=
  ⟨⟨by decide, C5_Resize_size_and_capacity (⟨1, 1, ⟨[7]⟩⟩ : SimpleVector Nat) 1 (by decide)⟩,
   ⟨by decide,
    C5_Resize_size_and_capacity (⟨3, 1, ⟨[7, 0, 0]⟩⟩ : SimpleVector Nat) 2 (by decide)⟩⟩

/-- Claim C5 as stated fails at `{7}` (size 1, capacity 1, the state the initializer-list
constructor builds) and `n = 1`: `n <= old capacity`, yet the capacity goes from 1 to 2. -/
theorem C5_Resize_to_capacity_reallocates :
    ofInitList [7] = .ok (⟨1, 1, ⟨[7]⟩⟩ : SimpleVector Nat) ∧
    (⟨1, 1, ⟨[7]⟩⟩ : SimpleVector Nat).WF ∧
    1 ≤ GetCapacity (⟨1, 1, ⟨[7]⟩⟩ : SimpleVector Nat) ∧
    Resize (⟨1, 1, ⟨[7]⟩⟩ : SimpleVector Nat) 1 = .ok ⟨2, 1, ⟨[7, 0]⟩⟩ ∧
    GetCapacity (⟨2, 1, ⟨[7, 0]⟩⟩ : SimpleVector Nat) ≠
      GetCapacity (⟨1, 1, ⟨[7]⟩⟩ : SimpleVector Nat) :=
  ⟨rfl, by decide, by decide, rfl, by decide⟩

/-- Claim C6 (evaluation of the code): after `SimpleVector<int> v{1, 2, 3}`, two `PopBack`
calls and `Resize(2)`, the newly visible element at index 1 is the stale 2, not `int()`,
which is 0: growing below the capacity only sets the size. -/
theorem C6_Resize_within_capacity_shows_stale_element :
    ofInitList [1, 2, 3] = .ok (⟨3, 3, ⟨[1, 2, 3]⟩⟩ : SimpleVector Nat) ∧
    PopBack (⟨3, 3, ⟨[1, 2, 3]⟩⟩ : SimpleVector Nat) = .ok ⟨3, 2, ⟨[1, 2, 3]⟩⟩ ∧
    PopBack (⟨3, 2, ⟨[1, 2, 3]⟩⟩ : SimpleVector Nat) = .ok ⟨3, 1, ⟨[1, 2, 3]⟩⟩ ∧
    GetSize (⟨3, 1, ⟨[1, 2, 3]⟩⟩ : SimpleVector Nat) < 2 ∧
    Resize (⟨3, 1, ⟨[1, 2, 3]⟩⟩ : SimpleVector Nat) 2 = .ok ⟨3, 2, ⟨[1, 2, 3]⟩⟩ ∧
    index (⟨3, 2, ⟨[1, 2, 3]⟩⟩ : SimpleVector Nat) 1 = .ok 2 ∧
    (2 : Nat) ≠ default :=
  ⟨rfl, rfl, rfl, by decide, rfl, rfl, by decide⟩

/-- Claim C8: on a vector satisfying the class invariant and for `i < Size()`, `Erase` at
`begin() + i` returns; the logical contents become `old[0..i) ++ old[i+1..size)`, the size
drops by one, the capacity is unchanged, and the returned iterator is index `i`: it points
at the element that followed the erased one, or is `end()` when `i` was the last index. -/
theorem C8_Erase_removes (mv : α → α) (v : SimpleVector α) (i : Nat) (h : v.WF)
    (hi : i < v.GetSize) :
    ∃ v1, Erase mv v i = .ok (v1, i) ∧
      v1.contents = v.contents.take i ++ v.contents.drop (i + 1) ∧
      v1.GetSize = v.GetSize - 1 ∧
      v1.GetCapacity = v.GetCapacity ∧
      (i + 1 < v.GetSize → v1.index i = v.index (i + 1)) ∧
      (i + 1 = v.GetSize → i = v1.GetSize) := by
  simp only [GetSize, GetCapacity] at hi ⊢
  obtain ⟨v1, hp, _, hs, hc, hcap⟩ := Erase_spec mv v i h hi
  have hlen : v.contents.length = v.size_ := contents_length v h
  refine ⟨v1, hp, hc, hs, hcap, ?_, ?_⟩
  · intro hlt
    apply index_congr v1 v i (i + 1) (by omega) hlt
    have htl : (v.contents.take i).length = i := by
      rw [List.length_take, hlen]; omega
    rw [hc, List.getElem?_append_right (by omega), htl, List.getElem?_drop]
    simp
  · intro hlast
    omega

/-- Claim C8, at `{1, 2, 3}` (size 3, capacity 3) and the middle position: the contents
become `{1, 3}` and the returned iterator, index 1, points at 3. -/
theorem C8_Erase_removes_witness :
    (⟨3, 3, ⟨[1, 2, 3]⟩⟩ : SimpleVector Nat).WF ∧
    1 < GetSize (⟨3, 3, ⟨[1, 2, 3]⟩⟩ : SimpleVector Nat) ∧
    ∃ v1, Erase id (⟨3, 3, ⟨[1, 2, 3]⟩⟩ : SimpleVector Nat) 1 = .ok (v1, 1) ∧
      v1.contents = [1, 3] ∧
      v1.GetSize = 2 ∧
      v1.GetCapacity = 3 ∧
      (1 + 1 < 3 → v1.index 1 = .ok 3) ∧
      (1 + 1 = 3 → 1 = v1.GetSize) :=
  ⟨by decide, by decide,
   C8_Erase_removes id (⟨3, 3, ⟨[1, 2, 3]⟩⟩ : SimpleVector Nat) 1 (by decide) (by decide)⟩

/-- Claim C9: on a vector satisfying the class invariant `Reserve(k)` returns; the size and
the elements below it are unchanged, the capacity becomes exactly `k` when `k` exceeds the
old capacity, nothing at all changes when it does not, and so the new capacity is
`max(old capacity, k)`. -/
theorem C9_Reserve_frame [Inhabited α] (v : SimpleVector α) (k : Nat) (h : v.WF) :
    ∃ v1, Reserve v k = .ok v1 ∧
      v1.GetSize = v.GetSize ∧
      v1.contents = v.contents ∧
      (∀ i, i < v.GetSize → v1.index i = v.index i) ∧
      (v.GetCapacity < k → v1.GetCapacity = k) ∧
      (k ≤ v.GetCapacity → v1 = v) ∧
      v1.GetCapacity = max v.GetCapacity k := by
  obtain ⟨v1, hr, _, hs, hc, hcap, hsame⟩ := Reserve_spec v k h
  simp only [GetSize, GetCapacity]
  refine ⟨v1, hr, hs, hc, ?_, ?_, hsame, hcap⟩
  · intro i hi
    apply index_congr v1 v i i (by omega) hi
    rw [hc]
  · intro hlt
    rw [hcap]; omega

/-- Claim C9, at the vector of size 2 and capacity 3 with buffer `[4, 5, 6]` and `k = 5`. -/
theorem C9_Reserve_frame_witness :
    (⟨3, 2, ⟨[4, 5, 6]⟩⟩ : SimpleVector Nat).WF ∧
    ∃ v1, Reserve (⟨3, 2, ⟨[4, 5, 6]⟩⟩ : SimpleVector Nat) 5 = .ok v1 ∧
      v1.GetSize = 2 ∧
      v1.contents = [4, 5] ∧
      (∀ i, i < 2 → v1.index i = index (⟨3, 2, ⟨[4, 5, 6]⟩⟩ : SimpleVector Nat) i) ∧
      (3 < 5 → v1.GetCapacity = 5) ∧
      (5 ≤ 3 → v1 = ⟨3, 2, ⟨[4, 5, 6]⟩⟩) ∧
      v1.GetCapacity = max 3 5 :=
  ⟨by decide, C9_Reserve_frame (⟨3, 2, ⟨[4, 5, 6]⟩⟩ : SimpleVector Nat) 5 (by decide)⟩

/-- Claim C10: on a vector satisfying the class invariant, after `Reserve(k)` the capacity
is at least `k`, and for a sequence of pushes that keeps the size at most `k` every push
returns and the capacity after each of them is the capacity right after `Reserve(k)`. -/
theorem C10_Reserve_then_pushes_keep_capacity [Inhabited α] (v : SimpleVector α) (k : Nat)
    (xs : List α) (h : v.WF) (hk : v.GetSize + xs.length ≤ k) :
    ∃ v1, Reserve v k = .ok v1 ∧ k ≤ v1.GetCapacity ∧
      ∀ m, m ≤ xs.length → ∃ v2, pushAll v1 (xs.take m) = .ok v2 ∧
        v2.GetSize = v.GetSize + m ∧ v2.GetSize ≤ k ∧
        v2.GetCapacity = v1.GetCapacity := by
  simp only [GetSize, GetCapacity] at hk ⊢
  obtain ⟨v1, hr, hw1, hs1, _, hcap1, _⟩ := Reserve_spec v k h
  have hk1 : k ≤ v1.capacity_ := by rw [hcap1]; omega
  refine ⟨v1, hr, hk1, fun m hm => ?_⟩
  obtain ⟨v2, hp, _, hs2, _, _, hcap2⟩ := pushAll_spec (xs.take m) v1 hw1
  have hlen : (xs.take m).length = m := by rw [List.length_take]; omega
  rw [hlen] at hs2 hcap2
  exact ⟨v2, hp, by omega, by omega, hcap2 (by omega)⟩

/-- Claim C10, at `{1}` (size 1, capacity 1), `k = 3` and the pushes of 8 and 9. -/
theorem C10_Reserve_then_pushes_keep_capacity_witness :
    (⟨1, 1, ⟨[1]⟩⟩ : SimpleVector Nat).WF ∧
    GetSize (⟨1, 1, ⟨[1]⟩⟩ : SimpleVector Nat) + [8, 9].length ≤ 3 ∧
    ∃ v1, Reserve (⟨1, 1, ⟨[1]⟩⟩ : SimpleVector Nat) 3 = .ok v1 ∧ 3 ≤ v1.GetCapacity ∧
      ∀ m, m ≤ [8, 9].length → ∃ v2, pushAll v1 ([8, 9].take m) = .ok v2 ∧
        v2.GetSize = GetSize (⟨1, 1, ⟨[1]⟩⟩ : SimpleVector Nat) + m ∧ v2.GetSize ≤ 3 ∧
        v2.GetCapacity = v1.GetCapacity :=
  ⟨by decide, by decide,
   C10_Reserve_then_pushes_keep_capacity (⟨1, 1, ⟨[1]⟩⟩ : SimpleVector Nat) 3 [8, 9]
     (by decide) (by decide)⟩

/-- Claim C11: the copy-value `Insert` at `end()` and `PushBack` give the same outcome on
every state and for every argument (the same size, capacity and buffer, or the same
fault); on a vector satisfying the class invariant and with an object outside the buffer
both return, the returned iterator is the old size and points at the appended element;
this covers the default-constructed vector of capacity 0. -/
theorem C11_Insert_at_end_is_PushBack [Inhabited α] (v : SimpleVector α) (x : α) :
    (∀ ref : Ref α,
      Insert v v.GetSize ref = (PushBack v ref).map (fun v1 => (v1, v.GetSize))) ∧
    (v.WF → ∃ v1, PushBack v (.obj x) = .ok v1 ∧
      Insert v v.GetSize (.obj x) = .ok (v1, v.GetSize) ∧
      v1.index v.GetSize = .ok x ∧ v1.contents = v.contents ++ [x]) ∧
    (∃ v1, PushBack (mk0 : SimpleVector α) (.obj x) = .ok v1 ∧
      Insert (mk0 : SimpleVector α) 0 (.obj x) = .ok (v1, 0) ∧ v1.GetCapacity = 1) := by
  have hgen : ∀ u : SimpleVector α, u.WF →
      ∃ v1, PushBack u (.obj x) = .ok v1 ∧ Insert u u.size_ (.obj x) = .ok (v1, u.size_) ∧
        v1.index u.size_ = .ok x ∧ v1.contents = u.contents ++ [x] ∧
        v1.capacity_ = (if u.size_ < u.capacity_ then u.capacity_
                        else if u.capacity_ = 0 then 1 else 2 * u.capacity_) := by
    intro u hu
    obtain ⟨v1, hp, _, hs, hc, hcap⟩ := PushBack_spec u x hu
    have hlen : u.contents.length = u.size_ := contents_length u hu
    refine ⟨v1, hp, ?_, ?_, hc, hcap⟩
    · rw [Insert_end_eq_PushBack, hp]
      rfl
    · apply index_of_contents v1 u.size_ x (by omega)
      rw [hc, List.getElem?_append_right (by omega), hlen]
      simp
  simp only [GetSize, GetCapacity]
  refine ⟨fun ref => Insert_end_eq_PushBack v ref, ?_, ?_⟩
  · intro hw
    obtain ⟨v1, h1, h2, h3, h4, _⟩ := hgen v hw
    exact ⟨v1, h1, h2, h3, h4⟩
  · obtain ⟨v1, h1, h2, _, _, h5⟩ := hgen mk0 mk0_WF
    exact ⟨v1, h1, h2, h5⟩

/-- Claim C11, at the full vector `{7, 8}` (size 2, capacity 2) and the value 9. -/
theorem C11_Insert_at_end_is_PushBack_witness :
    (⟨2, 2, ⟨[7, 8]⟩⟩ : SimpleVector Nat).WF ∧
    ∃ v1, PushBack (⟨2, 2, ⟨[7, 8]⟩⟩ : SimpleVector Nat) (.obj 9) = .ok v1 ∧
      Insert (⟨2, 2, ⟨[7, 8]⟩⟩ : SimpleVector Nat) 2 (.obj 9) = .ok (v1, 2) ∧
      v1.index 2 = .ok 9 ∧ v1.contents = [7, 8, 9] :=
  ⟨by decide,
   (C11_Insert_at_end_is_PushBack (⟨2, 2, ⟨[7, 8]⟩⟩ : SimpleVector Nat) 9).2.1 (by decide)⟩

/-- Claim C12: on vectors satisfying the class invariant `a < b` returns, and it is true
exactly when the logical contents of `a` are a proper initial segment of those of `b`, or
at the first index where the contents differ the element of `a` is the smaller one; and
`a > b` is `b < a`, `a <= b` is `!(b < a)`, `a >= b` is `!(a < b)`. -/
theorem C12_opLt_lexicographic [LinearOrder α] (a b : SimpleVector α) (ha : a.WF)
    (hb : b.WF) :
    ∃ r, opLt a b = .ok r ∧
      (r = true ↔
        (a.GetSize < b.GetSize ∧ b.contents.take a.GetSize = a.contents) ∨
        (∃ (i : Nat) (x y : α), a.contents[i]? = some x ∧ b.contents[i]? = some y ∧ x < y ∧
          ∀ j : Nat, j < i → a.contents[j]? = b.contents[j]?)) ∧
      opGt a b = opLt b a ∧
      opLe a b = (opLt b a).map (fun t => !t) ∧
      opGe a b = (opLt a b).map (fun t => !t) := by
  refine ⟨lexList a.contents b.contents, opLt_spec a b ha hb, ?_, rfl, rfl, rfl⟩
  rw [lexList_iff, contents_length a ha, contents_length b hb]
  rfl

/-- Claim C12, at `{1, 2}` and `{1, 2, 3}`: the first is a proper initial segment of the
second, so `{1, 2} < {1, 2, 3}` is true. -/
theorem C12_opLt_lexicographic_witness :
    (⟨2, 2, ⟨[1, 2]⟩⟩ : SimpleVector Nat).WF ∧ (⟨3, 3, ⟨[1, 2, 3]⟩⟩ : SimpleVector Nat).WF ∧
    opLt (⟨2, 2, ⟨[1, 2]⟩⟩ : SimpleVector Nat) ⟨3, 3, ⟨[1, 2, 3]⟩⟩ = .ok true := by
  refine ⟨by decide, by decide, ?_⟩
  obtain ⟨r, hr, hiff, _⟩ := C12_opLt_lexicographic (⟨2, 2, ⟨[1, 2]⟩⟩ : SimpleVector Nat)
    ⟨3, 3, ⟨[1, 2, 3]⟩⟩ (by decide) (by decide)
  have ht : r = true := hiff.mpr (Or.inl ⟨by decide, by decide⟩)
  rw [hr, ht]

/-- Claim C13: on the free store the copy constructor, given a vector object `a` whose
value satisfies the class invariant, returns an object `b` with a block of its own (an
address other than the one `a` holds) whose value has the size of `a`, the capacity of
`a` (not its size) and the same elements below the size; the value of `a` is unchanged
by the copy and by every later sequence of member function calls on `b` (with arguments
that are not elements of `a`), and `b.PushBack(x)` returns with size one more than the
size of `a` and the contents of `a` followed by `x` while `a` keeps its value. -/
theorem C13_copyCtor_deep_copy [Inhabited α] (mv : α → α) (h : Heap α) (a : VectorObj)
    (va : SimpleVector α) (hv : h.value a = .ok va) (hwf : va.WF) :
    ∃ h1 b vb, copyCtorH h a = .ok (h1, b) ∧ h1.value b = .ok vb ∧ copyCtor va = .ok vb ∧
      vb.GetSize = va.GetSize ∧ vb.GetCapacity = va.GetCapacity ∧
      (∀ i, i < va.GetSize → vb.index i = va.index i) ∧
      vb.contents = va.contents ∧
      b.raw_ptr_ ≠ a.raw_ptr_ ∧
      h1.value a = .ok va ∧
      (∀ (ms : List (Mut α)) (h2 : Heap α) (b2 : VectorObj),
        h1.calls mv b ms = .ok (h2, b2) → h2.value a = .ok va ∧ b2.raw_ptr_ ≠ a.raw_ptr_) ∧
      (∀ (m : Mut α) (vb1 : SimpleVector α), m.apply mv vb = .ok vb1 →
        ∃ h2 b2, h1.call mv b m = .ok (h2, b2) ∧ h2.value b2 = .ok vb1 ∧
          h2.value a = .ok va) ∧
      (∀ x : α, ∃ h2 b2 vb2, h1.call mv b (.PushBack (.obj x)) = .ok (h2, b2) ∧
        h2.value b2 = .ok vb2 ∧ vb2.GetSize = va.GetSize + 1 ∧
        vb2.contents = va.contents ++ [x] ∧ h2.value a = .ok va) := by
  obtain ⟨h1, b, vb, hcopy, hvb, hcv, hbp, halt, hlen, hra⟩ := Heap.copyCtorH_spec h a va hv hwf
  obtain ⟨hw, hc, hidx⟩ := copy_result_WF va hwf
  obtain ⟨hr, hcap, hsz⟩ := Heap.value_ok h a va hv
  have hvb_eq : vb = ⟨va.capacity_, va.size_,
      ⟨va.contents ++ List.replicate (va.capacity_ - va.size_) default⟩⟩ := by
    have h2 := copyCtor_spec va hwf
    rw [hcv] at h2
    cases h2
    rfl
  have hne : a.raw_ptr_ ≠ b.raw_ptr_ := by omega
  have halt1 : a.raw_ptr_ < h1.blocks.length := by omega
  have hva1 : h1.value a = .ok va := Heap.value_of_read h1 a va (hra.trans hr) hcap hsz
  have hkeep : ∀ (h2 : Heap α), h2.read a.raw_ptr_ = h1.read a.raw_ptr_ →
      h2.value a = .ok va := by
    intro h2 he
    exact Heap.value_of_read h2 a va (he.trans (hra.trans hr)) hcap hsz
  refine ⟨h1, b, vb, hcopy, hvb, hcv, ?_, ?_, ?_, ?_, fun e => hne e.symm, hva1, ?_, ?_, ?_⟩
  · rw [hvb_eq]; rfl
  · rw [hvb_eq]; rfl
  · rw [hvb_eq]; exact hidx
  · rw [hvb_eq]; exact hc
  · intro ms h2 b2 hcalls
    obtain ⟨he, hne2, _⟩ := Heap.calls_frame mv ms h1 h2 b b2 a.raw_ptr_ hcalls hne halt1
    exact ⟨hkeep h2 he, fun e => hne2 e.symm⟩
  · intro m vb1 hap
    obtain ⟨h2, b2, hcall, hval⟩ := Heap.call_value mv h1 b m vb vb1 hvb hap
    obtain ⟨he, _, _⟩ := Heap.call_frame mv h1 h2 b b2 m a.raw_ptr_ hcall hne halt1
    exact ⟨h2, b2, hcall, hval, hkeep h2 he⟩
  · intro x
    have hwb : vb.WF := by rw [hvb_eq]; exact hw
    obtain ⟨vb2, hp, _, hs, hcs, _⟩ := PushBack_spec vb x hwb
    obtain ⟨h2, b2, hcall, hval⟩ :=
      Heap.call_value mv h1 b (.PushBack (.obj x)) vb vb2 hvb hp
    obtain ⟨he, _, _⟩ :=
      Heap.call_frame mv h1 h2 b b2 (.PushBack (.obj x)) a.raw_ptr_ hcall hne halt1
    refine ⟨h2, b2, vb2, hcall, hval, ?_, ?_, hkeep h2 he⟩
    · show vb2.size_ = va.size_ + 1
      rw [hs, hvb_eq]
    · rw [hcs, hvb_eq, hc]

/-- Claim C13, at `a = {1, 2, 3}` in the only block of the free store: the copy has size 3
and capacity 3 in a second block, and after `b.PushBack(4)` the copy has size 4 while `a`
still has size 3 and contents `{1, 2, 3}`. -/
theorem C13_copyCtor_deep_copy_witness :
    (⟨[some [1, 2, 3]]⟩ : Heap Nat).value ⟨3, 3, 0⟩ = .ok ⟨3, 3, ⟨[1, 2, 3]⟩⟩ ∧
    (⟨3, 3, ⟨[1, 2, 3]⟩⟩ : SimpleVector Nat).WF ∧
    ∃ h1 b vb, copyCtorH (⟨[some [1, 2, 3]]⟩ : Heap Nat) ⟨3, 3, 0⟩ = .ok (h1, b) ∧
      h1.value b = .ok vb ∧ copyCtor (⟨3, 3, ⟨[1, 2, 3]⟩⟩ : SimpleVector Nat) = .ok vb ∧
      vb.GetSize = 3 ∧ vb.GetCapacity = 3 ∧
      (∀ i, i < 3 → vb.index i = index (⟨3, 3, ⟨[1, 2, 3]⟩⟩ : SimpleVector Nat) i) ∧
      vb.contents = [1, 2, 3] ∧
      b.raw_ptr_ ≠ 0 ∧
      h1.value ⟨3, 3, 0⟩ = .ok ⟨3, 3, ⟨[1, 2, 3]⟩⟩ ∧
      (∀ (ms : List (Mut Nat)) (h2 : Heap Nat) (b2 : VectorObj),
        h1.calls id b ms = .ok (h2, b2) →
          h2.value ⟨3, 3, 0⟩ = .ok ⟨3, 3, ⟨[1, 2, 3]⟩⟩ ∧ b2.raw_ptr_ ≠ 0) ∧
      (∀ (m : Mut Nat) (vb1 : SimpleVector Nat), m.apply id vb = .ok vb1 →
        ∃ h2 b2, h1.call id b m = .ok (h2, b2) ∧ h2.value b2 = .ok vb1 ∧
          h2.value ⟨3, 3, 0⟩ = .ok ⟨3, 3, ⟨[1, 2, 3]⟩⟩) ∧
      (∀ x : Nat, ∃ h2 b2 vb2, h1.call id b (.PushBack (.obj x)) = .ok (h2, b2) ∧
        h2.value b2 = .ok vb2 ∧ vb2.GetSize = 3 + 1 ∧
        vb2.contents = [1, 2, 3] ++ [x] ∧
        h2.value ⟨3, 3, 0⟩ = .ok ⟨3, 3, ⟨[1, 2, 3]⟩⟩) :=
  ⟨rfl, by decide,
    C13_copyCtor_deep_copy id (⟨[some [1, 2, 3]]⟩ : Heap Nat) ⟨3, 3, 0⟩ ⟨3, 3, ⟨[1, 2, 3]⟩⟩
      rfl (by decide)⟩

/-- Claim C14: the move constructor gives the new vector the size, the capacity and the
buffer (hence the elements) that the source had, and leaves the source with size 0 and
capacity 0, so that `IsEmpty()` is true. -/
theorem C14_moveCtor_steals (a : SimpleVector α) :
    (moveCtor a).1.GetSize = a.GetSize ∧
    (moveCtor a).1.GetCapacity = a.GetCapacity ∧
    (moveCtor a).1.contents = a.contents ∧
    (∀ i, (moveCtor a).1.index i = a.index i) ∧
    (moveCtor a).1 = a ∧
    (moveCtor a).2.GetSize = 0 ∧
    (moveCtor a).2.GetCapacity = 0 ∧
    (moveCtor a).2.IsEmpty = true :=
  ⟨rfl, rfl, rfl, fun _ => rfl, rfl, rfl, rfl, rfl⟩

/-- Claim C15: the move assignment is the copy assignment: for two different objects whose
right-hand side satisfies the class invariant, the left-hand side ends with the size, the
capacity and the elements of the right-hand side, which keeps its value; assigning an
object to itself changes nothing. -/
theorem C15_moveAssign_copies [Inhabited α] (s : Store α) (this rhs : Obj) :
    Store.moveAssign s this rhs = Store.copyAssign s this rhs ∧
    (this ≠ rhs → (s.get rhs).WF →
      ∃ s1, Store.moveAssign s this rhs = .ok s1 ∧ Store.copyAssign s this rhs = .ok s1 ∧
        (s1.get this).GetSize = (s.get rhs).GetSize ∧
        (s1.get this).GetCapacity = (s.get rhs).GetCapacity ∧
        (s1.get this).contents = (s.get rhs).contents ∧
        (∀ i, i < (s.get rhs).GetSize → (s1.get this).index i = (s.get rhs).index i) ∧
        s1.get rhs = s.get rhs) ∧
    Store.moveAssign s this this = .ok s ∧
    Store.copyAssign s this this = .ok s := by
  refine ⟨rfl, ?_, ?_, ?_⟩
  · intro hne hw
    obtain ⟨_, hc, hidx⟩ := copy_result_WF (s.get rhs) hw
    refine ⟨_, Store.copyAssign_spec s this rhs hne hw, Store.copyAssign_spec s this rhs hne hw,
      ?_, ?_, ?_, ?_, ?_⟩
    · rw [Store.get_put_same]; rfl
    · rw [Store.get_put_same]; rfl
    · rw [Store.get_put_same]; exact hc
    · intro i hi
      rw [Store.get_put_same]
      exact hidx i hi
    · exact Store.get_put_other s this rhs _ (fun h => hne h.symm)
  · unfold Store.moveAssign
    rw [if_neg (by simp)]
  · unfold Store.copyAssign
    rw [if_neg (by simp)]

/-- Claim C15, at `a = {9}` and `b = {1, 2, 3}`: after `a = std::move(b)` the object `a`
has size 3, capacity 3 and contents `{1, 2, 3}`, and `b` is still `{1, 2, 3}`. -/
theorem C15_moveAssign_copies_witness :
    Obj.a ≠ Obj.b ∧ (⟨3, 3, ⟨[1, 2, 3]⟩⟩ : SimpleVector Nat).WF ∧
    ∃ s1, Store.moveAssign (⟨⟨1, 1, ⟨[9]⟩⟩, ⟨3, 3, ⟨[1, 2, 3]⟩⟩⟩ : Store Nat) .a .b = .ok s1 ∧
      Store.copyAssign (⟨⟨1, 1, ⟨[9]⟩⟩, ⟨3, 3, ⟨[1, 2, 3]⟩⟩⟩ : Store Nat) .a .b = .ok s1 ∧
      (s1.get .a).GetSize = 3 ∧
      (s1.get .a).GetCapacity = 3 ∧
      (s1.get .a).contents = [1, 2, 3] ∧
      (∀ i, i < 3 → (s1.get .a).index i = index (⟨3, 3, ⟨[1, 2, 3]⟩⟩ : SimpleVector Nat) i) ∧
      s1.get .b = ⟨3, 3, ⟨[1, 2, 3]⟩⟩ :=
  ⟨by decide, by decide,
   (C15_moveAssign_copies (⟨⟨1, 1, ⟨[9]⟩⟩, ⟨3, 3, ⟨[1, 2, 3]⟩⟩⟩ : Store Nat) .a .b).2.1
     (by decide) (by decide)⟩

/-- Claim C16: on a vector satisfying the class invariant with capacity `c`, `Clear()`
sets the size to 0 and keeps the capacity and the buffer; and of at most `c` pushes made
afterwards each returns with capacity `c`, the size being the number of pushes made. -/
theorem C16_Clear_then_pushes_reuse_capacity [Inhabited α] (v : SimpleVector α) (h : v.WF) :
    (Clear v).GetSize = 0 ∧ (Clear v).GetCapacity = v.GetCapacity ∧
    (Clear v).vector_ = v.vector_ ∧
    ∀ xs : List α, xs.length ≤ v.GetCapacity → ∀ m, m ≤ xs.length →
      ∃ v2, pushAll (Clear v) (xs.take m) = .ok v2 ∧ v2.GetSize = m ∧
        v2.GetCapacity = v.GetCapacity := by
  simp only [GetSize, GetCapacity]
  refine ⟨rfl, rfl, rfl, fun xs hxs m hm => ?_⟩
  obtain ⟨v2, hp, _, hs, _, _, hcap⟩ := pushAll_spec (xs.take m) (Clear v) (Clear_WF v h)
  have hlen : (xs.take m).length = m := by rw [List.length_take]; omega
  rw [hlen] at hs hcap
  refine ⟨v2, hp, ?_, ?_⟩
  · rw [hs]; show 0 + m = m; omega
  · rw [hcap (by show 0 + m ≤ v.capacity_; omega)]
    rfl

/-- Claim C16, at the vector of size 2 and capacity 2 with buffer `[5, 6]`. -/
theorem C16_Clear_then_pushes_reuse_capacity_witness :
    (⟨2, 2, ⟨[5, 6]⟩⟩ : SimpleVector Nat).WF ∧
    (Clear (⟨2, 2, ⟨[5, 6]⟩⟩ : SimpleVector Nat)).GetSize = 0 ∧
    (Clear (⟨2, 2, ⟨[5, 6]⟩⟩ : SimpleVector Nat)).GetCapacity = 2 ∧
    (Clear (⟨2, 2, ⟨[5, 6]⟩⟩ : SimpleVector Nat)).vector_ = ⟨[5, 6]⟩ ∧
    ∀ xs : List Nat, xs.length ≤ 2 → ∀ m, m ≤ xs.length →
      ∃ v2, pushAll (Clear (⟨2, 2, ⟨[5, 6]⟩⟩ : SimpleVector Nat)) (xs.take m) = .ok v2 ∧
        v2.GetSize = m ∧ v2.GetCapacity = 2 :=
  ⟨by decide,
   C16_Clear_then_pushes_reuse_capacity (⟨2, 2, ⟨[5, 6]⟩⟩ : SimpleVector Nat) (by decide)⟩

/-- Claim C17: the class invariant, which contains `size <= capacity`, holds after every
constructor and is kept by every operation called within its precondition, for both
vectors where two are involved: on vectors `v`, `w` and a program state `s` that satisfy
it, every call below returns (for `PushBack` and `Insert`: with an object outside the
buffer) and its results satisfy it again; and with any argument a `PushBack` or `Insert`
that returns leaves a vector that satisfies it. -/
theorem C17_size_le_capacity_invariant [Inhabited α] (mv : α → α) (v w : SimpleVector α)
    (s : Store α) (hv : v.WF) (hw : w.WF) (hsa : s.a.WF) (hsb : s.b.WF) :
    (∀ u : SimpleVector α, u.WF → u.GetSize ≤ u.GetCapacity) ∧
    (mk0 : SimpleVector α).WF ∧
    (∀ n, ∃ u : SimpleVector α, ofCount n = .ok u ∧ u.WF) ∧
    (∀ n x, ∃ u : SimpleVector α, ofCountValue n x = .ok u ∧ u.WF) ∧
    (∀ init : List α, ∃ u, ofInitList init = .ok u ∧ u.WF) ∧
    (∃ u, copyCtor v = .ok u ∧ u.WF) ∧
    ((moveCtor v).1.WF ∧ (moveCtor v).2.WF) ∧
    (∀ k, ∃ u : SimpleVector α, ofReserve (SimpleVec.Reserve k) = .ok u ∧ u.WF) ∧
    (∀ k, ∃ u, Reserve v k = .ok u ∧ u.WF) ∧
    (∀ n, ∃ u, Resize v n = .ok u ∧ u.WF) ∧
    (Clear v).WF ∧
    (∀ x, ∃ u, PushBack v (.obj x) = .ok u ∧ u.WF) ∧
    (∀ i x, i ≤ v.GetSize → ∃ u, Insert v i (.obj x) = .ok (u, i) ∧ u.WF) ∧
    (∀ i x, i < v.GetSize → ∃ u, InsertMove mv v i (.obj x) = .ok (u, i) ∧ u.WF) ∧
    (v.GetSize ≠ 0 → ∃ u, PopBack v = .ok u ∧ u.WF) ∧
    (∀ i, i < v.GetSize → ∃ u, Erase mv v i = .ok (u, i) ∧ u.WF) ∧
    ((swap v w).1.WF ∧ (swap v w).2.WF) ∧
    (∀ this rhs, ∃ s1, Store.copyAssign s this rhs = .ok s1 ∧ s1.a.WF ∧ s1.b.WF) ∧
    (∀ this rhs, ∃ s1, Store.moveAssign s this rhs = .ok s1 ∧ s1.a.WF ∧ s1.b.WF) ∧
    (∀ x, ∃ u, PushBackMove mv v (.obj x) = .ok u ∧ u.WF) ∧
    (∀ ref u, PushBack v ref = .ok u → u.WF) ∧
    (∀ ref u, PushBackMove mv v ref = .ok u → u.WF) ∧
    (∀ i ref u k, i ≤ v.GetSize → Insert v i ref = .ok (u, k) → u.WF) ∧
    (∀ i ref u k, i < v.GetSize → InsertMove mv v i ref = .ok (u, k) → u.WF) := by
  have hassign : ∀ this rhs, ∃ s1, Store.copyAssign s this rhs = .ok s1 ∧ s1.a.WF ∧ s1.b.WF := by
    intro this rhs
    by_cases hne : this = rhs
    · refine ⟨s, ?_, hsa, hsb⟩
      unfold Store.copyAssign
      rw [if_neg (by simpa using hne)]
    · cases this <;> cases rhs
      · exact absurd rfl hne
      · exact ⟨_, Store.copyAssign_spec s .a .b hne hsb, (copy_result_WF s.b hsb).1, hsb⟩
      · exact ⟨_, Store.copyAssign_spec s .b .a hne hsa, hsa, (copy_result_WF s.a hsa).1⟩
      · exact absurd rfl hne
  simp only [GetSize, GetCapacity]
  refine ⟨fun u hu => hu.2, mk0_WF, ?_, ?_, ?_, ?_, ?_, ?_, ?_, ?_, Clear_WF v hv, ?_, ?_, ?_,
    ?_, ?_, ?_, hassign, hassign, ?_, ?_, ?_, ?_, ?_⟩
  · intro n
    exact ⟨_, ofCount_spec n, ⟨List.length_replicate n default, Nat.le_refl n⟩⟩
  · intro n x
    exact ⟨_, ofCountValue_spec n x, ⟨List.length_replicate n x, Nat.le_refl n⟩⟩
  · intro init
    exact ⟨_, ofInitList_spec init, ⟨rfl, Nat.le_refl _⟩⟩
  · exact ⟨_, copyCtor_spec v hv, (copy_result_WF v hv).1⟩
  · exact ⟨hv, mk0_WF⟩
  · intro k
    obtain ⟨u, hu, huw, _⟩ := Reserve_spec (mk0 : SimpleVector α) k mk0_WF
    exact ⟨u, hu, huw⟩
  · intro k
    obtain ⟨u, hu, huw, _⟩ := Reserve_spec v k hv
    exact ⟨u, hu, huw⟩
  · intro n
    obtain ⟨u, hu, huw, _⟩ := Resize_spec v n hv
    exact ⟨u, hu, huw⟩
  · intro x
    obtain ⟨u, hu, huw, _⟩ := PushBack_spec v x hv
    exact ⟨u, hu, huw⟩
  · intro i x hi
    obtain ⟨u, hu, huw, _⟩ := Insert_spec v i x hv hi
    exact ⟨u, hu, huw⟩
  · intro i x hi
    obtain ⟨u, hu, huw, _⟩ := Insert_spec v i x hv (Nat.le_of_lt hi)
    exact ⟨u, by rw [InsertMove_obj mv v i x hv hi]; exact hu, huw⟩
  · intro h0
    refine ⟨_, PopBack_spec v h0, ⟨hv.1, ?_⟩⟩
    show v.size_ - 1 ≤ v.capacity_
    have := hv.2
    omega
  · intro i hi
    obtain ⟨u, hu, huw, _⟩ := Erase_spec mv v i hv hi
    exact ⟨u, hu, huw⟩
  · exact ⟨hw, hv⟩
  · intro x
    obtain ⟨u, hu, huw, _⟩ := PushBack_spec v x hv
    exact ⟨u, by rw [PushBackMove_obj]; exact hu, huw⟩
  · intro ref u hu
    exact (PushBack_ok v u ref hv hu).1
  · intro ref u hu
    exact (PushBackMove_ok mv v u ref hv hu).1
  · intro i ref u k hi hu
    exact (Insert_ok v u i k ref hv hi hu).1
  · intro i ref u k hi hu
    exact (InsertMove_ok mv v u i k ref hv hi hu).1

/-- Claim C17, at `v = {1, 2}` (full), `w` of size 1 and capacity 2, and the program state
holding these two: the push onto `v` and the assignment `a = b` return vectors that
satisfy the invariant. -/
theorem C17_size_le_capacity_invariant_witness :
    (⟨2, 2, ⟨[1, 2]⟩⟩ : SimpleVector Nat).WF ∧ (⟨2, 1, ⟨[5, 0]⟩⟩ : SimpleVector Nat).WF ∧
    (∃ u, PushBack (⟨2, 2, ⟨[1, 2]⟩⟩ : SimpleVector Nat) (.obj 3) = .ok u ∧ u.WF) ∧
    (∃ s1, Store.copyAssign (⟨⟨2, 2, ⟨[1, 2]⟩⟩, ⟨2, 1, ⟨[5, 0]⟩⟩⟩ : Store Nat) .a .b = .ok s1 ∧
      s1.a.WF ∧ s1.b.WF) :=
  ⟨by decide, by decide,
   (C17_size_le_capacity_invariant id (⟨2, 2, ⟨[1, 2]⟩⟩ : SimpleVector Nat) ⟨2, 1, ⟨[5, 0]⟩⟩
      ⟨⟨2, 2, ⟨[1, 2]⟩⟩, ⟨2, 1, ⟨[5, 0]⟩⟩⟩ (by decide) (by decide) (by decide)
      (by decide)).2.2.2.2.2.2.2.2.2.2.2.1 3,
   (C17_size_le_capacity_invariant id (⟨2, 2, ⟨[1, 2]⟩⟩ : SimpleVector Nat) ⟨2, 1, ⟨[5, 0]⟩⟩
      ⟨⟨2, 2, ⟨[1, 2]⟩⟩, ⟨2, 1, ⟨[5, 0]⟩⟩⟩ (by decide) (by decide) (by decide)
      (by decide)).2.2.2.2.2.2.2.2.2.2.2.2.2.2.2.2.2.1 .a .b⟩

/-- Claim C19: on a vector satisfying the class invariant, each of `PushBack`, both
`Insert` overloads at a valid position, `Erase` at a valid position, `PopBack` on a
non-empty vector, `Clear`, `Resize(n)` and `Reserve(k)` returns (for `PushBack` and
`Insert`: with an object outside the buffer) with a capacity that is at least the capacity
before the call; and with any argument a `PushBack` or `Insert` that returns has a
capacity that is at least the capacity before the call. -/
theorem C19_capacity_never_shrinks [Inhabited α] (mv : α → α) (v : SimpleVector α)
    (h : v.WF) :
    (∀ x, ∃ u, PushBack v (.obj x) = .ok u ∧ v.GetCapacity ≤ u.GetCapacity) ∧
    (∀ i x, i ≤ v.GetSize →
      ∃ u, Insert v i (.obj x) = .ok (u, i) ∧ v.GetCapacity ≤ u.GetCapacity) ∧
    (∀ i x, i < v.GetSize →
      ∃ u, InsertMove mv v i (.obj x) = .ok (u, i) ∧ v.GetCapacity ≤ u.GetCapacity) ∧
    (∀ i, i < v.GetSize → ∃ u, Erase mv v i = .ok (u, i) ∧ v.GetCapacity ≤ u.GetCapacity) ∧
    (v.GetSize ≠ 0 → ∃ u, PopBack v = .ok u ∧ v.GetCapacity ≤ u.GetCapacity) ∧
    v.GetCapacity ≤ (Clear v).GetCapacity ∧
    (∀ n, ∃ u, Resize v n = .ok u ∧ v.GetCapacity ≤ u.GetCapacity) ∧
    (∀ k, ∃ u, Reserve v k = .ok u ∧ v.GetCapacity ≤ u.GetCapacity) ∧
    (∀ x, ∃ u, PushBackMove mv v (.obj x) = .ok u ∧ v.GetCapacity ≤ u.GetCapacity) ∧
    (∀ ref u, PushBack v ref = .ok u → v.GetCapacity ≤ u.GetCapacity) ∧
    (∀ ref u, PushBackMove mv v ref = .ok u → v.GetCapacity ≤ u.GetCapacity) ∧
    (∀ i ref u k, i ≤ v.GetSize → Insert v i ref = .ok (u, k) →
      v.GetCapacity ≤ u.GetCapacity) ∧
    (∀ i ref u k, i < v.GetSize → InsertMove mv v i ref = .ok (u, k) →
      v.GetCapacity ≤ u.GetCapacity) := by
  have hgrow : v.capacity_ ≤ (if v.size_ < v.capacity_ then v.capacity_
      else if v.capacity_ = 0 then 1 else 2 * v.capacity_) := by
    split
    · exact Nat.le_refl _
    · split <;> omega
  simp only [GetSize, GetCapacity]
  refine ⟨?_, ?_, ?_, ?_, ?_, Nat.le_refl _, ?_, ?_, ?_, ?_, ?_, ?_, ?_⟩
  · intro x
    obtain ⟨u, hu, _, _, _, hcap⟩ := PushBack_spec v x h
    exact ⟨u, hu, by rw [hcap]; exact hgrow⟩
  · intro i x hi
    obtain ⟨u, hu, _, _, _, hcap⟩ := Insert_spec v i x h hi
    exact ⟨u, hu, by rw [hcap]; exact hgrow⟩
  · intro i x hi
    obtain ⟨u, hu, _, _, _, hcap⟩ := Insert_spec v i x h (Nat.le_of_lt hi)
    exact ⟨u, by rw [InsertMove_obj mv v i x h hi]; exact hu, by rw [hcap]; exact hgrow⟩
  · intro i hi
    obtain ⟨u, hu, _, _, _, hcap⟩ := Erase_spec mv v i h hi
    exact ⟨u, hu, by rw [hcap]⟩
  · intro h0
    exact ⟨_, PopBack_spec v h0, Nat.le_refl _⟩
  · intro n
    obtain ⟨u, hu, _, _, hcap⟩ := Resize_spec v n h
    refine ⟨u, hu, ?_⟩
    rw [hcap]
    split <;> omega
  · intro k
    obtain ⟨u, hu, _, _, _, hcap, _⟩ := Reserve_spec v k h
    refine ⟨u, hu, ?_⟩
    rw [hcap]
    omega
  · intro x
    obtain ⟨u, hu, _, _, _, hcap⟩ := PushBack_spec v x h
    exact ⟨u, by rw [PushBackMove_obj]; exact hu, by rw [hcap]; exact hgrow⟩
  · intro ref u hu
    rw [(PushBack_ok v u ref h hu).2.2]
    exact hgrow
  · intro ref u hu
    rw [(PushBackMove_ok mv v u ref h hu).2.2]
    exact hgrow
  · intro i ref u k hi hu
    rw [(Insert_ok v u i k ref h hi hu).2.2.2]
    exact hgrow
  · intro i ref u k hi hu
    rw [(InsertMove_ok mv v u i k ref h hi hu).2.2.2]
    exact hgrow

/-- Claim C19, at the vector of size 2 and capacity 3 with buffer `[4, 5, 6]`. -/
theorem C19_capacity_never_shrinks_witness :
    (⟨3, 2, ⟨[4, 5, 6]⟩⟩ : SimpleVector Nat).WF ∧
    (∀ n, ∃ u, Resize (⟨3, 2, ⟨[4, 5, 6]⟩⟩ : SimpleVector Nat) n = .ok u ∧
      GetCapacity (⟨3, 2, ⟨[4, 5, 6]⟩⟩ : SimpleVector Nat) ≤ u.GetCapacity) ∧
    (∀ k, ∃ u, Reserve (⟨3, 2, ⟨[4, 5, 6]⟩⟩ : SimpleVector Nat) k = .ok u ∧
      GetCapacity (⟨3, 2, ⟨[4, 5, 6]⟩⟩ : SimpleVector Nat) ≤ u.GetCapacity) :=
  ⟨by decide,
   (C19_capacity_never_shrinks id (⟨3, 2, ⟨[4, 5, 6]⟩⟩ : SimpleVector Nat)
      (by decide)).2.2.2.2.2.2.1,
   (C19_capacity_never_shrinks id (⟨3, 2, ⟨[4, 5, 6]⟩⟩ : SimpleVector Nat)
      (by decide)).2.2.2.2.2.2.2.1⟩

end Claims
end SimpleVector
end SimpleVec
